import Mathlib

/-!
# OxaTrace: a shallow embedding of the rendering core

This file embeds the rendering core of the OxaTrace ray tracer in Lean 4 and
proves properties of it.  Doubles are modelled as exact rationals (`ℚ`);
calls into the C math library (`std::sqrt`, `std::pow` with a fractional
exponent, `std::sin`, `std::cos`) are modelled as oracle parameters, since
their values never decide the properties below.  Fallible C++ code (functions
that throw) is modelled with `Except`.

Embedded source files:
* `src/main.cpp` — the `renderer_pool` job scheduler;
* `src/renderer.cpp` — the recursive shader (`do_shade`) and the adaptive
  supersampler (`pixel_samples`, `subpixel_sample`, `sample`);
* `src/solids.cpp` — `sphere::intersect`, `plane::intersect`, the `material`
  constructor;
* `src/math.cpp` / `src/math.hpp` — vector helpers, `reflect`,
  `cos_lobe_perturb`, `EPSILON`, `PI`.
-/

namespace OxaTrace

/-- `constexpr double EPSILON{1e-8}` from math.hpp. -/
def EPSILON : ℚ := 1 / 100000000

/-- `constexpr double PI{3.141592}` from math.hpp (an exact double literal). -/
def PI : ℚ := 3141592 / 1000000

/-- `double_eq` from math.hpp: `fabs(a - b) < EPSILON`. -/
def double_eq (a b : ℚ) : Bool := |a - b| < EPSILON

/-- `double_neq` from math.hpp. -/
def double_neq (a b : ℚ) : Bool := !(double_eq a b)

/-- `vector3` (math.hpp); channels are doubles, modelled as `ℚ`. -/
structure vector3 where
  x : ℚ
  y : ℚ
  z : ℚ
deriving DecidableEq, Repr

/-- Componentwise addition of vectors (math.hpp `operator+`). -/
def vadd (u v : vector3) : vector3 := ⟨u.x + v.x, u.y + v.y, u.z + v.z⟩

/-- Componentwise subtraction of vectors (math.hpp `operator-`). -/
def vsub (u v : vector3) : vector3 := ⟨u.x - v.x, u.y - v.y, u.z - v.z⟩

/-- Scalar multiple of a vector (math.hpp `operator*`). -/
def vsmul (c : ℚ) (v : vector3) : vector3 := ⟨c * v.x, c * v.y, c * v.z⟩

/-- `dot` from math.hpp. -/
def dot (u v : vector3) : ℚ := u.x * v.x + u.y * v.y + u.z * v.z

/-- `norm_squared` / Eigen `squaredNorm`: `<v, v>`. -/
def norm_squared (v : vector3) : ℚ := dot v v

/-- `hdr_color` (color.hpp): three double channels. -/
structure hdr_color where
  r : ℚ
  g : ℚ
  b : ℚ
deriving DecidableEq, Repr

/-- Componentwise colour addition (color.hpp `operator+=`). -/
def cadd (a c : hdr_color) : hdr_color := ⟨a.r + c.r, a.g + c.g, a.b + c.b⟩

/-- Colour–scalar multiplication (color.hpp `operator*=` with a double). -/
def csmul (a : hdr_color) (d : ℚ) : hdr_color := ⟨a.r * d, a.g * d, a.b * d⟩

/-- The C++ exception kinds thrown by the embedded code. -/
inductive err where
  | invalidArgument (msg : String)
  | logicError (msg : String)
  | outOfRange (msg : String)
deriving DecidableEq, Repr

/-- Is this exception a `std::invalid_argument`? -/
def err.isInvalidArgument : err → Bool
  | .invalidArgument _ => true
  | _ => false

/-!
## The job scheduler of `renderer_pool` (main.cpp)

`renderer_pool::get_job` hands out jobs by an atomic `fetch_add` on the
shared counter `current_job_index_`.  Atomicity means the concurrent calls
linearize: we model the counter as explicit state and a call to `get_job` as
one state transition, regardless of which worker thread makes the call.
-/

/-- `static unsigned constexpr job_size = 1024` (main.cpp). -/
def job_size : ℕ := 1024

/-- One linearized call to `renderer_pool::get_job` (main.cpp lines 166–177):
given `total_pixels` and the current value of `current_job_index_`, it
returns the claimed job start (if any) and the new counter value.  The two
range checks of the source collapse because within one linearized call the
fetched `index` is the checked counter value. -/
def get_job (total ctr : ℕ) : Option ℕ × ℕ :=
  if ctr * job_size < total then (some (ctr * job_size), ctr + 1)
  else (none, ctr)

/-- The pixel indices written by the worker loop for a job starting at
`begin`: `for (index = begin; index < begin + job_size && index < total)`
(main.cpp lines 194–211). -/
def job_pixels (total begin_ : ℕ) : List ℕ :=
  List.range' begin_ (min (begin_ + job_size) total - begin_)

/-- Drain the job counter: the ordered list of job starts handed out by
`get_job` until it reports no more work.  Under the atomic counter this is
the multiset of jobs claimed by the workers of any pool run that completes
(each worker loops until its own `get_job` returns `false`).  The lemma
`drain_jobs_step` below shows this loop is exactly iteration of `get_job`. -/
def drain_jobs (total ctr : ℕ) : List ℕ :=
  if ctr * job_size < total then ctr * job_size :: drain_jobs total (ctr + 1)
  else []
termination_by total - ctr * job_size
decreasing_by
  simp only [job_size] at *
  omega

/-- Each step of `drain_jobs` is one `get_job` transition. -/
lemma drain_jobs_step (total ctr : ℕ) :
    drain_jobs total ctr =
      match get_job total ctr with
      | (some j, ctr1) => j :: drain_jobs total ctr1
      | (none, _) => [] := by
  rw [drain_jobs, get_job]
  split <;> simp

/-- All pixel indices written by a completed pool run over `total` pixels:
the concatenation of every claimed job's pixel range. -/
def pool_writes (total : ℕ) : List ℕ :=
  (drain_jobs total 0).flatMap (job_pixels total)

lemma mem_drain_ge (total ctr : ℕ) :
    ∀ j ∈ drain_jobs total ctr, ctr * job_size ≤ j := by
  rw [drain_jobs]
  split
  · rename_i hlt
    intro i hi
    rcases List.mem_cons.mp hi with h0 | h1
    · omega
    · have hrec := mem_drain_ge total (ctr + 1) i h1
      have hm : ctr * job_size ≤ (ctr + 1) * job_size :=
        Nat.mul_le_mul_right _ (Nat.le_succ _)
      omega
  · intro j hj
    cases hj
termination_by total - ctr * job_size
decreasing_by
  simp only [job_size] at *
  omega

lemma drain_jobs_nodup (total ctr : ℕ) : (drain_jobs total ctr).Nodup := by
  rw [drain_jobs]
  split
  · rename_i hlt
    refine List.nodup_cons.mpr ⟨?_, drain_jobs_nodup total (ctr + 1)⟩
    intro hmem
    have h1 := mem_drain_ge total (ctr + 1) _ hmem
    have h2 : ctr * job_size < (ctr + 1) * job_size := by
      simp only [job_size]; omega
    omega
  · exact List.nodup_nil
termination_by total - ctr * job_size
decreasing_by
  simp only [job_size] at *
  omega

lemma drain_flat (total ctr : ℕ) :
    (drain_jobs total ctr).flatMap (job_pixels total) =
      List.range' (ctr * job_size) (total - ctr * job_size) := by
  rw [drain_jobs]
  split
  · rename_i hlt
    have ih := drain_flat total (ctr + 1)
    simp only [List.flatMap_cons, ih]
    rw [job_pixels]
    rcases le_or_lt (ctr * job_size + job_size) total with hle | hgt
    · have h1 : min (ctr * job_size + job_size) total - ctr * job_size =
          job_size := by omega
      have h2 : (ctr + 1) * job_size = ctr * job_size + job_size := by ring
      rw [h1, h2, List.range'_append_1]
      have h4 : total - (ctr * job_size + job_size) + job_size =
          total - ctr * job_size := by omega
      rw [h4]
    · have h1 : min (ctr * job_size + job_size) total - ctr * job_size =
          total - ctr * job_size := by omega
      have h2 : total - (ctr + 1) * job_size = 0 := by
        have h3 : (ctr + 1) * job_size = ctr * job_size + job_size := by ring
        omega
      rw [h1, h2]
      simp
  · rename_i hge
    have h0 : total - ctr * job_size = 0 := by omega
    rw [h0]
    simp
termination_by total - ctr * job_size
decreasing_by
  simp only [job_size] at *
  omega

/-- **C1** *Partition safety of the tile scheduler* (main.cpp,
`renderer_pool::get_job` and `renderer_pool::worker`).  For any image of
`W×H` pixels: (1) the pixel indices written by a completed pool run — the
linearization of the workers' atomic `get_job` claims — are exactly
`0, …, W*H - 1`, each written exactly once (no duplicates, no gaps);
(2) the pixel ranges of jobs with distinct ordinals are pairwise disjoint;
(3) the job starts handed out by the drained counter are pairwise distinct.
The thread count does not enter the linearized model: any positive number of
workers produces the same multiset of claims. -/
theorem C1_partition_safety (W H : ℕ) :
    pool_writes (W * H) = List.range (W * H) ∧
    (∀ m n i : ℕ, m ≠ n → i ∈ job_pixels (W * H) (m * job_size) →
      i ∈ job_pixels (W * H) (n * job_size) → False) ∧
    (drain_jobs (W * H) 0).Nodup := by
  refine ⟨?_, ?_, drain_jobs_nodup _ 0⟩
  · rw [pool_writes, drain_flat]
    simp [List.range_eq_range']
  · intro m n i hmn h1 h2
    rw [job_pixels, List.mem_range'] at h1 h2
    obtain ⟨_, h1b⟩ := h1
    obtain ⟨_, h2b⟩ := h2
    simp only [job_size] at *
    rcases Nat.lt_or_ge m n with hlt | hge
    · have : (m + 1) * 1024 ≤ n * 1024 := Nat.mul_le_mul_right _ hlt
      omega
    · have hlt : n < m := by omega
      have : (n + 1) * 1024 ≤ m * 1024 := Nat.mul_le_mul_right _ hlt
      omega

/-- Witness for C1 at a concrete image size (`40 × 50 = 2000` pixels, two
claimed jobs of sizes 1024 and 976). -/
theorem C1_partition_safety_witness : pool_writes (40 * 50) = List.range 2000 :=
  (C1_partition_safety 40 50).1

/-!
## The recursive shader (renderer.cpp lines 13–113)

Doubles are exact rationals; the C math library functions `std::sqrt`,
`std::pow` (with fractional exponent), `std::sin`, `std::cos` are oracle
parameters collected in `cmath` — no property below depends on their
values.  A division by zero (which in C++ yields ±inf/NaN) yields `0` in
`ℚ`; no claim-relevant path divides by zero.
-/

/-- The C math library functions consumed by the shader, as oracles. -/
structure cmath where
  sqrt : ℚ → ℚ
  pow : ℚ → ℚ → ℚ
  sin : ℚ → ℚ
  cos : ℚ → ℚ

/-- `cross` (Eigen / math.hpp). -/
def cross (u v : vector3) : vector3 :=
  ⟨u.y * v.z - u.z * v.y, u.z * v.x - u.x * v.z, u.x * v.y - u.y * v.x⟩

/-- Componentwise division of a vector by a scalar (math.hpp `operator/`). -/
def vdiv (v : vector3) (c : ℚ) : vector3 := ⟨v.x / c, v.y / c, v.z / c⟩

/-- `norm` from math.hpp: `sqrt(norm_squared v)`. -/
def norm (fns : cmath) (v : vector3) : ℚ := fns.sqrt (norm_squared v)

/-- `normalize` from math.hpp; throws `std::invalid_argument` on a zero
vector.  Every construction of a `unit<vector3>` from a raw vector runs
through this. -/
def normalize (fns : cmath) (v : vector3) : Except err vector3 :=
  let L := norm fns v
  if double_neq L 0 then .ok (vdiv v L)
  else .error (.invalidArgument "normalize: Given a zero vector")

/-- `oxatrace::reflect` (math.cpp): `v - 2 <v, n> n`, returned as a `unit3`
(hence normalized by the `unit` constructor). -/
def reflect (fns : cmath) (v normal : vector3) : Except err vector3 :=
  normalize fns (vsub v (vsmul (2 * dot v normal) normal))

/-- `oxatrace::get_any_orthogonal` (math.cpp); the result is a `unit3`,
hence normalized on construction. -/
def get_any_orthogonal (fns : cmath) (input : vector3) : Except err vector3 :=
  let v := input
  let x := |v.x|
  let y := |v.y|
  let z := |v.z|
  if x ≥ y ∧ x ≥ z then normalize fns ⟨(-v.y - v.z) / v.x, 1, 1⟩
  else if y ≥ x ∧ y ≥ z then normalize fns ⟨1, (-v.x - v.z) / v.y, 1⟩
  else normalize fns ⟨1, 1, (-v.x - v.y) / v.z⟩

/-- The sampler PRNG (`sampler_prng_engine`): modelled as the stream of raw
uniform draws in `[0,1)` that the `std::uniform_real_distribution` adapters
consume.  An exhausted stream yields `0`, still inside `[0,1)`. -/
def draw (prng : List ℚ) : ℚ × List ℚ := (prng.headD 0, prng.tail)

/-- `uniform_real_distribution{a, b}` applied to one raw draw `u ∈ [0,1)`:
`a + u * (b - a)`. -/
def uniform_real (a b u : ℚ) : ℚ := a + u * (b - a)

/-- `oxatrace::cos_lobe_perturb` (math.cpp): perturb `v` by sampling a
cosine-power lobe.  Consumes two PRNG draws; the result is a `unit3`. -/
def cos_lobe_perturb (fns : cmath) (v : vector3) (n : ℕ) (prng : List ℚ) :
    Except err (vector3 × List ℚ) :=
  let z := v
  match get_any_orthogonal fns z with
  | .error e => .error e
  | .ok x =>
    let y := cross x z
    let (u1, prng1) := draw prng
    let (u2, prng2) := draw prng1
    let phi := uniform_real 0 (2 * PI) u1
    let r := uniform_real 0 1 u2
    let p := fns.pow r (2 / (n + 1 : ℚ))
    let q := fns.sqrt (1 - p)
    match normalize fns
        (vadd (vadd (vsmul (fns.cos phi * q) x) (vsmul (fns.sin phi * q) y))
          (vsmul (fns.pow r (1 / (n + 1 : ℚ))) z)) with
    | .error e => .error e
    | .ok w => .ok (w, prng2)

/-- `ray` (math.hpp): origin and *unit* direction.  `direction` is only ever
produced by `normalize` or copied from another unit vector. -/
structure ray where
  origin : vector3
  direction : vector3
deriving Repr

/-- Construct a `ray` from a raw (non-unit) direction vector: the
`unit<vector3>` converting constructor normalizes and may throw. -/
def ray_mk (fns : cmath) (origin dir : vector3) : Except err ray :=
  match normalize fns dir with
  | .error e => .error e
  | .ok u => .ok ⟨origin, u⟩

/-- `material` (solids.hpp): Phong material parameters. -/
structure material where
  ambient : hdr_color
  diffuse : ℚ
  specular : ℚ
  specular_exponent : ℕ
  reflectance : ℚ
deriving DecidableEq, Repr

/-- The `material` constructor (solids.cpp lines 173–187): validates the
coefficient ranges, throwing `std::invalid_argument`. -/
def material_ctor (ambient : hdr_color) (diffuse specular : ℚ)
    (specular_exponent : ℕ) (reflectance : ℚ) : Except err material :=
  if diffuse < 0 ∨ diffuse > 1 then
    .error (.invalidArgument "material: Invalid diffuse coefficient.")
  else if specular < 0 ∨ specular > 1 then
    .error (.invalidArgument "material: Invalid specular coefficient.")
  else if reflectance < 0 ∨ reflectance > 1 then
    .error (.invalidArgument "material: Invalid reflectance value.")
  else .ok ⟨ambient, diffuse, specular, specular_exponent, reflectance⟩

/-- `light` (lights.hpp): collaborator data, `get_source` and `color`. -/
structure light where
  source : vector3
  color : hdr_color
deriving Repr

/-- `scene::intersection` (scene.hpp) as the data the shader reads from it:
`position()`, `normal()` (lazily cached in the source — pure memoization,
invisible here), the texture colour `texture()`, and the hit solid's
material.  Collaborator-produced (spec section 6). -/
structure intersection where
  position : vector3
  normal : vector3
  texture : hdr_color
  mat : material
deriving Repr

/-- `scene` (scene.hpp): `intersect_solid` returns the closest intersection
or nothing; `lights()` iterates the scene's lights.  Collaborator oracle. -/
structure scene where
  intersect_solid : ray → Option intersection
  lights : List light

/-- `shading_policy` as used by renderer.cpp (public data members
`background`, `max_depth`, `min_importance`, `jitter`, `supersampling`;
the header of this code revision is not in the tree, the fields are exactly
the ones renderer.cpp and main.cpp read). -/
structure shading_policy where
  background : hdr_color
  max_depth : ℕ
  min_importance : ℚ
  jitter : Bool
  supersampling : ℕ

/-- `cos_angle(normal, light_dir)` at the call site in `blend_light`
(renderer.cpp line 38): the first argument is a `unit3`, whose `norm`
overload returns `1.0` without computing a square root; the second is a raw
`vector3`. -/
def cos_angle (fns : cmath) (u v : vector3) : ℚ :=
  dot u v / (1 * norm fns v)

/-- `blend_light` (renderer.cpp lines 13–48).  Note that when
`cos_alpha <= 0` the source returns `material.base_color()` — the material's
ambient colour — not the accumulated `base_color` argument. -/
def blend_light (fns : cmath) (m : material) (base_color : hdr_color)
    (normal : vector3) (light_color : hdr_color) (light_dir : vector3) :
    hdr_color :=
  let cos_alpha := cos_angle fns normal light_dir
  if cos_alpha ≤ 0 then m.ambient
  else
    let diffuse_color := csmul (csmul light_color m.diffuse) cos_alpha
    let specular_color :=
      csmul (csmul light_color m.specular) (cos_alpha ^ m.specular_exponent)
    cadd (cadd base_color diffuse_color) specular_color

/-- `blend_reflection` (renderer.cpp lines 50–55). -/
def blend_reflection (m : material) (base_color reflection_color : hdr_color) :
    hdr_color :=
  cadd base_color (csmul reflection_color m.reflectance)

/-- `should_continue` (renderer.cpp lines 57–65): validates the importance
precondition (throwing `std::logic_error`), then checks the depth and
importance stopping conditions. -/
def should_continue (current_depth : ℕ) (current_importance : ℚ)
    (policy : shading_policy) : Except err Bool :=
  if current_importance < 0 ∨ current_importance > 1 then
    .error (.logicError "should_continue: importance outside [0, 1]")
  else
    .ok (decide (current_depth ≤ policy.max_depth) &&
      decide (current_importance ≥ policy.min_importance))

lemma should_continue_ok_true {d : ℕ} {i : ℚ} {p : shading_policy}
    (h : should_continue d i p = .ok true) :
    d ≤ p.max_depth ∧ p.min_importance ≤ i ∧ 0 ≤ i ∧ i ≤ 1 := by
  rw [should_continue] at h
  split at h
  · cases h
  · rename_i hrange
    push_neg at hrange
    simp only [Except.ok.injEq, Bool.and_eq_true, decide_eq_true_eq] at h
    exact ⟨h.1, h.2, hrange.1, hrange.2⟩

/-- One iteration of the per-light loop of `do_shade` (renderer.cpp lines
79–90), for light `l` with accumulated colour `result`.  Also counts the
rays cast into the scene (the shadow ray). -/
def shade_one_light (fns : cmath) (sc : scene) (i : intersection)
    (result : hdr_color) (l : light) : Except err hdr_color × ℕ :=
  let light_dir := vsub l.source i.position
  match ray_mk fns i.position light_dir with
  | .error e => (.error e, 0)
  | .ok shadow_ray =>
    match sc.intersect_solid shadow_ray with
    | some obstacle =>
      if norm_squared (vsub obstacle.position i.position) <
          norm_squared (vsub l.source i.position) then
        (.ok result, 1)
      else
        (.ok (blend_light fns i.mat result i.normal l.color light_dir), 1)
    | none => (.ok (blend_light fns i.mat result i.normal l.color light_dir), 1)

/-- The whole per-light loop: fold `shade_one_light` over the scene's
lights, accumulating the colour and the shadow-ray count, propagating a
thrown exception. -/
def shade_lights (fns : cmath) (sc : scene) (i : intersection) :
    List light → hdr_color → Except err hdr_color × ℕ
  | [], result => (.ok result, 0)
  | l :: ls, result =>
    match shade_one_light fns sc i result l with
    | (.error e, c) => (.error e, c)
    | (.ok result2, c) =>
      let (res, c2) := shade_lights fns sc i ls result2
      (res, c + c2)

/-- The result of a `do_shade` call: the outcome (colour and remaining PRNG
stream, or a thrown exception), instrumented with the number of
`intersect_solid` casts performed and the chain of `importance` arguments
received by the nested recursive invocations (outermost first). -/
structure shade_out where
  res : Except err (hdr_color × List ℚ)
  casts : ℕ
  imps : List ℚ

/-- The hit case of `do_shade` (renderer.cpp lines 74–106), with the
recursive reflection call abstracted as the continuation `recur` (which
`do_shade` instantiates with itself at `depth + 1`); factored out so that
the recursive definition unfolds cheaply. -/
def do_shade_hit (fns : cmath) (sc : scene) (r : ray)
    (policy : shading_policy) (importance : ℚ) (prng : List ℚ)
    (recur : ray → ℚ → List ℚ → shade_out) : shade_out :=
  match sc.intersect_solid r with
  | none => ⟨.ok (policy.background, prng), 1, [importance]⟩
  | some i =>
    match shade_lights fns sc i sc.lights i.texture with
    | (.error e, c) => ⟨.error e, 1 + c, [importance]⟩
    | (.ok result, c) =>
      match reflect fns r.direction i.normal with
      | .error e => ⟨.error e, 1 + c, [importance]⟩
      | .ok perfect_reflection_dir =>
        match cos_lobe_perturb fns perfect_reflection_dir
            i.mat.specular_exponent prng with
        | .error e => ⟨.error e, 1 + c, [importance]⟩
        | .ok (reflection_dir, prng2) =>
          let reflected : ray := ⟨i.position, reflection_dir⟩
          let reflection_importance := i.mat.reflectance
          let out := recur reflected (reflection_importance * importance) prng2
          match out.res with
          | .error e => ⟨.error e, 1 + c + out.casts, importance :: out.imps⟩
          | .ok (reflection, prng3) =>
            ⟨.ok (blend_reflection i.mat result reflection, prng3),
              1 + c + out.casts, importance :: out.imps⟩

/-- `do_shade` (renderer.cpp lines 67–107): recursive shading. -/
def do_shade (fns : cmath) (sc : scene) (r : ray) (policy : shading_policy)
    (depth : ℕ) (importance : ℚ) (prng : List ℚ) : shade_out :=
  match hsc : should_continue depth importance policy with
  | .error e => ⟨.error e, 0, [importance]⟩
  | .ok false => ⟨.ok (policy.background, prng), 0, [importance]⟩
  | .ok true =>
    do_shade_hit fns sc r policy importance prng
      (fun r2 importance2 prng2 =>
        do_shade fns sc r2 policy (depth + 1) importance2 prng2)
termination_by policy.max_depth + 1 - depth
decreasing_by
  have hd := (should_continue_ok_true hsc).1
  omega

/-- `shade` (renderer.cpp lines 109–113): the top-level entry point. -/
def shade (fns : cmath) (sc : scene) (r : ray) (policy : shading_policy)
    (prng : List ℚ) : shade_out :=
  do_shade fns sc r policy 0 1 prng

/-!
## Solid intersections (solids.cpp lines 19–80 and 110–124)
-/

/-- `sphere::intersect` (solids.cpp lines 19–80): solve the quadratic for
the unit sphere and drop parameters not greater than `EPSILON`. -/
def sphere_intersect (fns : cmath) (r : ray) : List ℚ :=
  let od := dot r.origin r.direction
  let od_2 := od * od
  let d_2 := norm_squared r.direction
  let o_2 := norm_squared r.origin
  let D := od_2 - d_2 * (o_2 - 1)
  if D < 0 then []
  else
    let sqrt_D := fns.sqrt D
    let t_1 := (-od - sqrt_D) / d_2
    let t_2 := (-od + sqrt_D) / d_2
    if t_1 > EPSILON then [t_1, t_2]
    else if t_2 > EPSILON then [t_2]
    else []

/-- `plane::intersect` (solids.cpp lines 110–124): intersect with the
`xy` plane, treating near-parallel rays as missing. -/
def plane_intersect (r : ray) : List ℚ :=
  if double_eq r.direction.z 0 then []
  else
    let t := -r.origin.z / r.direction.z
    if t > EPSILON then [t] else []

/-- **C10** (solids.cpp, `sphere::intersect` and `plane::intersect`).
Neither intersection routine ever returns a parameter `t ≤ EPSILON` — a ray
starting on the surface never reports its own origin as a hit — and the
list returned by `sphere::intersect` is sorted in ascending order, so its
first element is the closest hit.  The only fact assumed about the
`std::sqrt` oracle is that it is nonnegative on nonnegative arguments. -/
theorem C10_intersect_epsilon (fns : cmath) (r : ray)
    (hsqrt : ∀ x : ℚ, 0 ≤ x → 0 ≤ fns.sqrt x) :
    (∀ t ∈ sphere_intersect fns r, EPSILON < t) ∧
    (sphere_intersect fns r).Sorted (· ≤ ·) ∧
    (∀ t ∈ plane_intersect r, EPSILON < t) := by
  have hd2 : 0 ≤ norm_squared r.direction := by
    simp only [norm_squared, dot]
    have h1 := mul_self_nonneg r.direction.x
    have h2 := mul_self_nonneg r.direction.y
    have h3 := mul_self_nonneg r.direction.z
    linarith
  constructor
  · intro t ht
    rw [sphere_intersect] at ht
    simp only at ht
    split at ht
    · cases ht
    · rename_i hD
      split at ht
      · rename_i ht1
        rcases List.mem_cons.mp ht with h1 | h2
        · subst h1; exact ht1
        · have h2 : t = (-dot r.origin r.direction +
              fns.sqrt (dot r.origin r.direction * dot r.origin r.direction -
                norm_squared r.direction * (norm_squared r.origin - 1))) /
              norm_squared r.direction := by
            simpa using h2
          subst h2
          have hs : 0 ≤ fns.sqrt (dot r.origin r.direction *
              dot r.origin r.direction -
              norm_squared r.direction * (norm_squared r.origin - 1)) :=
            hsqrt _ (by linarith [not_lt.mp hD])
          set od := dot r.origin r.direction
          set sD := fns.sqrt (od * od -
            norm_squared r.direction * (norm_squared r.origin - 1))
          rcases eq_or_lt_of_le hd2 with hz | hpos
          · exfalso
            rw [← hz] at ht1
            simp at ht1
            have : EPSILON > 0 := by norm_num [EPSILON]
            linarith
          · calc EPSILON < (-od - sD) / norm_squared r.direction := ht1
              _ ≤ (-od + sD) / norm_squared r.direction := by
                  apply (div_le_div_iff_of_pos_right hpos).mpr
                  linarith
      · split at ht
        · rename_i ht2
          rcases List.mem_cons.mp ht with h1 | h2
          · subst h1; exact ht2
          · cases h2
        · cases ht
  constructor
  · rw [sphere_intersect]
    simp only
    split
    · exact List.sorted_nil
    · rename_i hD
      split
      · rename_i ht1
        refine List.sorted_cons.mpr ⟨?_, List.sorted_singleton _⟩
        intro b hb
        have hb : b = (-dot r.origin r.direction +
            fns.sqrt (dot r.origin r.direction * dot r.origin r.direction -
              norm_squared r.direction * (norm_squared r.origin - 1))) /
            norm_squared r.direction := by simpa using hb
        subst hb
        have hs : 0 ≤ fns.sqrt (dot r.origin r.direction *
            dot r.origin r.direction -
            norm_squared r.direction * (norm_squared r.origin - 1)) :=
          hsqrt _ (by linarith [not_lt.mp hD])
        set od := dot r.origin r.direction
        set sD := fns.sqrt (od * od -
          norm_squared r.direction * (norm_squared r.origin - 1))
        rcases eq_or_lt_of_le hd2 with hz | hpos
        · exfalso
          rw [← hz] at ht1
          simp at ht1
          have : EPSILON > 0 := by norm_num [EPSILON]
          linarith
        · apply (div_le_div_iff_of_pos_right hpos).mpr
          linarith
      · split
        · exact List.sorted_singleton _
        · exact List.sorted_nil
  · intro t ht
    rw [plane_intersect] at ht
    dsimp only at ht
    split at ht
    · cases ht
    · split at ht
      · rename_i hgt
        rcases List.mem_cons.mp ht with h1 | h2
        · subst h1; exact hgt
        · cases h2
      · cases ht

/-- Witness for C10: the ray from `(0,0,-2)` towards `+z` against the unit
sphere (two hits, both beyond `EPSILON`, sorted), and against the plane. -/
theorem C10_intersect_epsilon_witness :
    (∀ t ∈ sphere_intersect ⟨fun _ => 0, fun _ _ => 0, fun _ => 0,
        fun _ => 0⟩ ⟨⟨0, 0, -2⟩, ⟨0, 0, 1⟩⟩, EPSILON < t) ∧
    (sphere_intersect ⟨fun _ => 0, fun _ _ => 0, fun _ => 0, fun _ => 0⟩
        ⟨⟨0, 0, -2⟩, ⟨0, 0, 1⟩⟩).Sorted (· ≤ ·) ∧
    (∀ t ∈ plane_intersect ⟨⟨0, 0, -2⟩, ⟨0, 0, 1⟩⟩, EPSILON < t) :=
  C10_intersect_epsilon _ _ (fun _ _ => le_refl 0)

/-!
## Claims about the shader
-/

/-- **C7** *Shadow occlusion* (renderer.cpp lines 79–90).  If casting the
shadow ray from the intersection position towards the light yields an
obstacle whose squared distance from the intersection position is smaller
than the light's, the light is skipped: the accumulated colour is returned
unchanged — neither the diffuse nor the specular term is added (only the
one shadow-ray cast is performed). -/
theorem C7_shadow_occlusion (fns : cmath) (sc : scene) (i : intersection)
    (result : hdr_color) (l : light) (sr : ray) (obs : intersection)
    (hray : ray_mk fns i.position (vsub l.source i.position) = .ok sr)
    (hhit : sc.intersect_solid sr = some obs)
    (hnear : norm_squared (vsub obs.position i.position) <
      norm_squared (vsub l.source i.position)) :
    shade_one_light fns sc i result l = (.ok result, 1) := by
  unfold shade_one_light
  simp only [hray, hhit]
  rw [if_pos hnear]

/-- Witness for C7: a light at `(0,0,2)` above a surface point at the
origin, occluded by an obstacle at `(0,0,1)`. -/
theorem C7_shadow_occlusion_witness :
    shade_one_light ⟨fun _ => 2, fun _ _ => 0, fun _ => 0, fun _ => 0⟩
      ⟨fun _ => some ⟨⟨0, 0, 1⟩, ⟨0, 0, 1⟩, ⟨1, 1, 1⟩, ⟨⟨0, 0, 0⟩, 1, 1, 1, 1⟩⟩,
        []⟩
      ⟨⟨0, 0, 0⟩, ⟨0, 0, 1⟩, ⟨1, 1, 1⟩, ⟨⟨0, 0, 0⟩, 1, 1, 1, 1⟩⟩
      ⟨1, 1, 1⟩ ⟨⟨0, 0, 2⟩, ⟨1, 1, 1⟩⟩ = (.ok ⟨1, 1, 1⟩, 1) :=
  C7_shadow_occlusion _ _ _ _ _
    ⟨⟨0, 0, 0⟩, ⟨0, 0, 1⟩⟩
    ⟨⟨0, 0, 1⟩, ⟨0, 0, 1⟩, ⟨1, 1, 1⟩, ⟨⟨0, 0, 0⟩, 1, 1, 1, 1⟩⟩
    (by unfold ray_mk normalize
        norm_num [norm, norm_squared, dot, vsub, vdiv, double_neq, double_eq,
          EPSILON])
    rfl
    (by norm_num [norm_squared, dot, vsub])

/-- **C6** is a code bug (renderer.cpp lines 13–48, `blend_light`): when
`cos_alpha <= 0` the source returns `material.base_color()` — the
material's *ambient* colour — instead of the accumulated `base_color`
argument, so a back-facing light erases the colour accumulated so far
instead of contributing nothing.  This theorem evaluates the embedded code
at the failing input: surface normal `(0,0,1)`, light direction `(0,0,-1)`
(hence `cos_alpha = -1 ≤ 0`), no obstacle, ambient colour black, and
accumulated colour `(1/2, 1/2, 1/2)`; processing the light yields black,
not the accumulated colour, contradicting the claim (and the Phong-formula
comment above the function, under which a `cos_alpha ≤ 0` light has zero
intensity). -/
theorem C6_cos_nonpos_bug :
    shade_one_light ⟨fun _ => 1, fun _ _ => 0, fun _ => 0, fun _ => 0⟩
      ⟨fun _ => none, []⟩
      ⟨⟨0, 0, 0⟩, ⟨0, 0, 1⟩, ⟨1, 1, 1⟩, ⟨⟨0, 0, 0⟩, 1, 1, 1, 1⟩⟩
      ⟨1 / 2, 1 / 2, 1 / 2⟩ ⟨⟨0, 0, -1⟩, ⟨1, 1, 1⟩⟩ =
      (.ok ⟨0, 0, 0⟩, 1) ∧
    (⟨0, 0, 0⟩ : hdr_color) ≠ ⟨1 / 2, 1 / 2, 1 / 2⟩ := by
  constructor
  · unfold shade_one_light ray_mk normalize blend_light
    norm_num [norm, norm_squared, dot, vsub, vdiv, double_neq, double_eq,
      EPSILON, cos_angle]
  · norm_num [hdr_color.mk.injEq]

/-- The original C4 claim formalized: does this `do_shade` outcome consist
of a thrown `std::invalid_argument`? -/
def throws_invalid_argument (o : shade_out) : Bool :=
  match o.res with
  | .error e => e.isInvalidArgument
  | .ok _ => false

/-- **C4** (amended) (renderer.cpp lines 57–65, `should_continue`; called
from `do_shade`).  Calling the shading function with an importance outside
`[0,1]` fails immediately at the point of the violating call — with a
`std::logic_error` (not `std::invalid_argument` as the claim stated) — the
value is never clamped and no shading work is performed: zero rays are cast
into the scene. -/
theorem C4_importance_contract (fns : cmath) (sc : scene) (r : ray)
    (policy : shading_policy) (depth : ℕ) (importance : ℚ) (prng : List ℚ)
    (h : importance < 0 ∨ importance > 1) :
    do_shade fns sc r policy depth importance prng =
      ⟨.error (.logicError "should_continue: importance outside [0, 1]"), 0,
        [importance]⟩ := by
  have hsc : should_continue depth importance policy =
      .error (.logicError "should_continue: importance outside [0, 1]") := by
    rw [should_continue, if_pos h]
  unfold do_shade
  split
  · rename_i e heq
    rw [hsc] at heq
    cases heq
    rfl
  · rename_i heq
    rw [hsc] at heq
    cases heq
  · rename_i heq
    rw [hsc] at heq
    cases heq

/-- Witness for C4 (amended): importance `2` at depth `0`. -/
theorem C4_importance_contract_witness :
    do_shade ⟨fun _ => 1, fun _ _ => 0, fun _ => 0, fun _ => 0⟩
      ⟨fun _ => none, []⟩ ⟨⟨0, 0, 0⟩, ⟨0, 0, 1⟩⟩ ⟨⟨1, 2, 3⟩, 0, 0, false, 1⟩
      0 2 [] =
      ⟨.error (.logicError "should_continue: importance outside [0, 1]"), 0,
        [2]⟩ :=
  C4_importance_contract _ _ _ _ _ _ _ (by norm_num)

/-- Counterexample to C4 as stated: at importance `2` the code does fail
immediately, but the exception thrown is a plain `std::logic_error`, not a
`std::invalid_argument` (a C++ handler for `std::invalid_argument` would
not catch it). -/
theorem C4_importance_contract_cex :
    throws_invalid_argument
      (do_shade ⟨fun _ => 1, fun _ _ => 0, fun _ => 0, fun _ => 0⟩
        ⟨fun _ => none, []⟩ ⟨⟨0, 0, 0⟩, ⟨0, 0, 1⟩⟩ ⟨⟨1, 2, 3⟩, 0, 0, false, 1⟩
        0 2 []) = false := by
  have hsc : should_continue 0 2 (⟨⟨1, 2, 3⟩, 0, 0, false, 1⟩ :
      shading_policy) =
      .error (.logicError "should_continue: importance outside [0, 1]") := by
    rw [should_continue]
    rw [if_pos (by norm_num)]
  unfold do_shade
  split
  · rename_i e heq
    rw [hsc] at heq
    cases heq
    rfl
  · rename_i heq
    rw [hsc] at heq
    cases heq
  · rename_i heq
    rw [hsc] at heq
    cases heq

lemma should_continue_depth_exceeded (p : shading_policy) (i : ℚ)
    (h0 : 0 ≤ i) (h1 : i ≤ 1) :
    should_continue (p.max_depth + 1) i p = .ok false := by
  rw [should_continue]
  rw [if_neg (by push_neg; exact ⟨h0, h1⟩)]
  have hdec : decide (p.max_depth + 1 ≤ p.max_depth) = false := by
    simp
  rw [hdec, Bool.false_and]

/-- **C3** (amended) (renderer.cpp lines 57–76).  For every scene, ray,
policy and PRNG state, and every importance *within the `[0,1]`
precondition*, calling the shading function with
`depth = policy.max_depth + 1` returns exactly `policy.background` and
casts no ray into the scene.  (The claim's "regardless of the importance"
does not hold: an importance outside `[0,1]` throws instead — see the
counterexample — exactly as C4 and the spec's own precondition require.) -/
theorem C3_depth_terminates (fns : cmath) (sc : scene) (r : ray)
    (policy : shading_policy) (importance : ℚ) (prng : List ℚ)
    (h0 : 0 ≤ importance) (h1 : importance ≤ 1) :
    do_shade fns sc r policy (policy.max_depth + 1) importance prng =
      ⟨.ok (policy.background, prng), 0, [importance]⟩ := by
  have hsc := should_continue_depth_exceeded policy importance h0 h1
  unfold do_shade
  split
  · rename_i e heq
    rw [hsc] at heq
    cases heq
  · rfl
  · rename_i heq
    rw [hsc] at heq
    cases heq

/-- Witness for C3 (amended): a policy with `max_depth = 0`, shading at
depth `1` with importance `1/2` returns the background and casts nothing. -/
theorem C3_depth_terminates_witness :
    do_shade ⟨fun _ => 1, fun _ _ => 0, fun _ => 0, fun _ => 0⟩
      ⟨fun _ => none, []⟩ ⟨⟨0, 0, 0⟩, ⟨0, 0, 1⟩⟩ ⟨⟨1, 2, 3⟩, 0, 0, false, 1⟩
      (0 + 1) (1 / 2) [] = ⟨.ok (⟨1, 2, 3⟩, []), 0, [1 / 2]⟩ :=
  C3_depth_terminates _ _ _ ⟨⟨1, 2, 3⟩, 0, 0, false, 1⟩ _ _ (by norm_num)
    (by norm_num)

/-- Counterexample to C3 as stated ("regardless … of the importance"): with
importance `2` and `depth = max_depth + 1` the call does *not* return the
background — it throws a `std::logic_error`. -/
theorem C3_depth_terminates_cex :
    do_shade ⟨fun _ => 1, fun _ _ => 0, fun _ => 0, fun _ => 0⟩
      ⟨fun _ => none, []⟩ ⟨⟨0, 0, 0⟩, ⟨0, 0, 1⟩⟩ ⟨⟨1, 2, 3⟩, 0, 0, false, 1⟩
      (0 + 1) 2 [] ≠
      ⟨.ok (⟨1, 2, 3⟩, []), 0, [2]⟩ := by
  have hsc : should_continue (0 + 1) 2 (⟨⟨1, 2, 3⟩, 0, 0, false, 1⟩ :
      shading_policy) =
      .error (.logicError "should_continue: importance outside [0, 1]") := by
    rw [should_continue]
    rw [if_pos (by norm_num)]
  unfold do_shade
  split
  · rename_i e heq
    intro hcontra
    cases hcontra
  · rename_i heq
    rw [hsc] at heq
    cases heq
  · rename_i heq
    rw [hsc] at heq
    cases heq

/-- A material that passed its constructor's validation (solids.cpp lines
173–187): reconstructing it through `material_ctor` succeeds. -/
def material_valid (m : material) : Prop :=
  material_ctor m.ambient m.diffuse m.specular m.specular_exponent
    m.reflectance = .ok m

lemma material_valid_reflectance {m : material} (h : material_valid m) :
    0 ≤ m.reflectance ∧ m.reflectance ≤ 1 := by
  rw [material_valid, material_ctor] at h
  split_ifs at h with h1 h2 h3
  push_neg at h3
  exact h3

/-- The importance chain produced by `do_shade`: its head is the received
importance, it is non-increasing, and all its entries are nonnegative,
provided the initial importance is nonnegative and every material the scene
returns passed its constructor validation (hence `reflectance ∈ [0,1]`). -/
lemma do_shade_imps_chain (fns : cmath) (sc : scene) (r : ray)
    (policy : shading_policy) (depth : ℕ) (importance : ℚ) (prng : List ℚ)
    (himp : 0 ≤ importance)
    (hmat : ∀ r2 i, sc.intersect_solid r2 = some i → material_valid i.mat) :
    (do_shade fns sc r policy depth importance prng).imps.head? =
      some importance ∧
    (do_shade fns sc r policy depth importance prng).imps.Chain'
      (fun a b => b ≤ a ∧ 0 ≤ b) := by
  unfold do_shade
  split
  · exact ⟨rfl, List.chain'_singleton _⟩
  · exact ⟨rfl, List.chain'_singleton _⟩
  · unfold do_shade_hit
    split
    · exact ⟨rfl, List.chain'_singleton _⟩
    · rename_i i hi
      have hrefl := material_valid_reflectance (hmat r i hi)
      split
      · exact ⟨rfl, List.chain'_singleton _⟩
      · split
        · exact ⟨rfl, List.chain'_singleton _⟩
        · split
          · exact ⟨rfl, List.chain'_singleton _⟩
          · rename_i reflection_dir prng2 hperturb
            have h2 : 0 ≤ i.mat.reflectance * importance :=
              mul_nonneg hrefl.1 himp
            have hle : i.mat.reflectance * importance ≤ importance := by
              calc i.mat.reflectance * importance ≤ 1 * importance :=
                    mul_le_mul_of_nonneg_right hrefl.2 himp
                _ = importance := one_mul _
            obtain ⟨hh, hc⟩ := do_shade_imps_chain fns sc
              ⟨i.position, reflection_dir⟩ policy (depth + 1)
              (i.mat.reflectance * importance) prng2 h2 hmat
            dsimp only
            split
            · refine ⟨rfl, List.chain'_cons'.mpr ⟨?_, hc⟩⟩
              intro y hy
              rw [hh] at hy
              cases hy
              exact ⟨hle, h2⟩
            · refine ⟨rfl, List.chain'_cons'.mpr ⟨?_, hc⟩⟩
              intro y hy
              rw [hh] at hy
              cases hy
              exact ⟨hle, h2⟩
termination_by policy.max_depth + 1 - depth
decreasing_by
  have hd : depth ≤ policy.max_depth := (should_continue_ok_true (by
    assumption)).1
  omega

/-- **C8** *Importance monotonicity* (renderer.cpp lines 92–104 and the
`material` constructor, solids.cpp lines 173–187).  The importance passed
to each recursive reflection call is the caller's importance multiplied by
the hit material's reflectance; since every constructor-validated material
has `reflectance ∈ [0,1]`, the chain of importance values received along
any shading recursion (the instrumented `imps` trace, whose head is the
initial importance) is non-increasing. -/
theorem C8_importance_monotone (fns : cmath) (sc : scene) (r : ray)
    (policy : shading_policy) (depth : ℕ) (importance : ℚ) (prng : List ℚ)
    (himp : 0 ≤ importance)
    (hmat : ∀ r2 i, sc.intersect_solid r2 = some i → material_valid i.mat) :
    (do_shade fns sc r policy depth importance prng).imps.head? =
      some importance ∧
    (do_shade fns sc r policy depth importance prng).imps.Chain'
      (fun a b => b ≤ a) := by
  obtain ⟨h1, h2⟩ := do_shade_imps_chain fns sc r policy depth importance
    prng himp hmat
  exact ⟨h1, h2.imp (fun _ _ h => h.1)⟩

/-- Witness for C8: a one-bounce scene whose single material has
reflectance `1/2`; the chain starts at the initial importance `1` and is
non-increasing. -/
theorem C8_importance_monotone_witness :
    (do_shade ⟨fun _ => 1, fun _ _ => 0, fun _ => 0, fun _ => 1⟩
      ⟨fun _ => some ⟨⟨0, 0, 0⟩, ⟨0, 0, 1⟩, ⟨1, 1, 1⟩,
        ⟨⟨0, 0, 0⟩, 1, 1, 1, 1 / 2⟩⟩, []⟩
      ⟨⟨0, 0, 2⟩, ⟨0, 0, -1⟩⟩ ⟨⟨1, 2, 3⟩, 0, 0, false, 1⟩
      0 1 []).imps.head? = some 1 ∧
    (do_shade ⟨fun _ => 1, fun _ _ => 0, fun _ => 0, fun _ => 1⟩
      ⟨fun _ => some ⟨⟨0, 0, 0⟩, ⟨0, 0, 1⟩, ⟨1, 1, 1⟩,
        ⟨⟨0, 0, 0⟩, 1, 1, 1, 1 / 2⟩⟩, []⟩
      ⟨⟨0, 0, 2⟩, ⟨0, 0, -1⟩⟩ ⟨⟨1, 2, 3⟩, 0, 0, false, 1⟩
      0 1 []).imps.Chain' (fun a b => b ≤ a) :=
  C8_importance_monotone _ _ _ _ _ _ _ (by norm_num)
    (by
      intro r2 i h
      injection h with h
      subst h
      rw [material_valid, material_ctor]
      norm_num)

/-!
## The adaptive supersampler (renderer.cpp lines 115–424)

The scene/camera/shader stack below the sampler is the oracle
`shade_point`, standing for `shade(scene, cam.make_ray(point), policy,
prng)` (renderer.cpp line 343): it maps the sample point to a colour and
consumes PRNG entropy (returning a suffix of the stream).  The sampler
state threads the sample grid and the PRNG stream, instrumented with the
number of camera rays cast (`rays`) and the conjunction of
`pixel_samples::add`'s `weight == 0` assertions (`add_ok`).
-/

/-- `rectangle` (math.cpp lines 113–132): `x`, `y`, `width`, `height`;
the constructor asserts positive width and height. -/
structure rectangle where
  x : ℚ
  y : ℚ
  width : ℚ
  height : ℚ
deriving DecidableEq, Repr

/-- `std::numeric_limits<double>::max()`, exactly. -/
def dbl_max : ℚ := (2 ^ 53 - 1) * 2 ^ 971

/-- `std::numeric_limits<double>::min()` — the smallest positive
normalized double, exactly (note: not the lowest double). -/
def dbl_min : ℚ := 1 / 2 ^ 1022

/-- One channel-wise `min` update pass of the corner loop (renderer.cpp
lines 387–392): `if (sample->value[ch] < min[ch]) min[ch] = ...`. -/
def chan_min (mn v : hdr_color) : hdr_color :=
  ⟨if v.r < mn.r then v.r else mn.r,
   if v.g < mn.g then v.g else mn.g,
   if v.b < mn.b then v.b else mn.b⟩

/-- One channel-wise `max` update pass of the corner loop. -/
def chan_max (mx v : hdr_color) : hdr_color :=
  ⟨if v.r > mx.r then v.r else mx.r,
   if v.g > mx.g then v.g else mx.g,
   if v.b > mx.b then v.b else mx.b⟩

/-- Modelled from the spec: `distance(min, max)` on colours is not in the
tree (only its caller, renderer.cpp line 398, is); per spec section 4.2 it
is "the Euclidean distance between the min-vector and max-vector", via the
`std::sqrt` oracle. -/
def color_distance (fns : cmath) (a c : hdr_color) : ℚ :=
  fns.sqrt ((a.r - c.r) ^ 2 + (a.g - c.g) ^ 2 + (a.b - c.b) ^ 2)

/-- `pixel_samples::sample` (renderer.cpp lines 143–146): a colour and a
weight; `weight = 0` means the slot is unfilled. -/
structure pixel_samples.sample where
  value : hdr_color
  weight : ℕ
deriving DecidableEq, Repr

/-- `pixel_samples` (renderer.cpp lines 141–171): the dense `side × side`
sample grid of one pixel, stored row-major (`samples_[y * side_ + x]`). -/
structure pixel_samples where
  samples : List pixel_samples.sample
  region : rectangle
  side : ℕ
deriving Repr

/-- `pixel_samples::reset` (renderer.cpp lines 214–222): clear and resize
to `side * side` value-initialized samples (`weight = 0`; the colour
channels are indeterminate in the source and never read before being
written — modelled as `0`). -/
def pixel_samples.reset (pixel : rectangle) (side : ℕ) : pixel_samples :=
  ⟨List.replicate (side * side) ⟨⟨0, 0, 0⟩, 0⟩, pixel, side⟩

/-- `pixel_samples::at` (renderer.cpp lines 224–232): `samples_[y*side+x]`. -/
def pixel_samples.at_ (ps : pixel_samples) (x y : ℕ) : pixel_samples.sample :=
  ps.samples.getD (y * ps.side + x) ⟨⟨0, 0, 0⟩, 0⟩

/-- Writing through the reference returned by `pixel_samples::at`. -/
def pixel_samples.set_at (ps : pixel_samples) (x y : ℕ)
    (s : pixel_samples.sample) : pixel_samples :=
  { ps with samples := ps.samples.set (y * ps.side + x) s }

/-- `pixel_samples::add` (renderer.cpp lines 234–250): bucket the point
into the grid and store the sample.  Returns the updated grid, the bucket
coordinates, and whether the source's `assert(samples_[y*side+x].weight ==
0)` held (instrumentation; the other index asserts are consequences of the
bucket bounds proved below). -/
def pixel_samples.add (ps : pixel_samples) (point : ℚ × ℚ)
    (s : pixel_samples.sample) : pixel_samples × (ℕ × ℕ) × Bool :=
  let offset : ℚ × ℚ := (point.1 - ps.region.x, point.2 - ps.region.y)
  let x : ℕ := (⌊offset.1 * ps.side / ps.region.width⌋).toNat
  let y : ℕ := (⌊offset.2 * ps.side / ps.region.height⌋).toNat
  (ps.set_at x y s, (x, y), decide ((ps.at_ x y).weight = 0))

/-- `subpixel_ref` (renderer.cpp lines 173–201): a non-owning view of an
axis-aligned square sub-region of the grid, by offsets and side. -/
structure subpixel_ref where
  offset_x : ℕ
  offset_y : ℕ
  side : ℕ
deriving DecidableEq, Repr

/-- `subpixel_ref::region` (renderer.cpp lines 290–299). -/
def subpixel_ref.region (r : subpixel_ref) (ps : pixel_samples) : rectangle :=
  let w := ps.region.width / ps.side
  let h := ps.region.height / ps.side
  ⟨ps.region.x + r.offset_x * w, ps.region.y + r.offset_y * h,
    r.side * w, r.side * h⟩

/-- `subpixel_ref::corner` (renderer.cpp lines 301–309): corner `c` of the
four quadrants (0 top-left, 1 top-right, 2 bottom-left, 3 bottom-right). -/
def subpixel_ref.corner (r : subpixel_ref) (c : ℕ) : subpixel_ref :=
  let s := r.side / 2
  ⟨r.offset_x + s * (c % 2), r.offset_y + s * (c / 2), s⟩

/-- The `(x, y)` pairs of the square region of `r`, in the scan order of
`get_any` and `total_weight` (`x` outer, `y` inner). -/
def square_pairs (r : subpixel_ref) : List (ℕ × ℕ) :=
  (List.range r.side).flatMap (fun dx =>
    (List.range r.side).map (fun dy => (r.offset_x + dx, r.offset_y + dy)))

/-- `subpixel_ref::get_any` (renderer.cpp lines 270–279): the first sample
of the region with nonzero weight, as its grid coordinates. -/
def subpixel_ref.get_any (r : subpixel_ref) (ps : pixel_samples) :
    Option (ℕ × ℕ) :=
  (square_pairs r).find? (fun p => 0 < (ps.at_ p.1 p.2).weight)

/-- `subpixel_ref::total_weight` (renderer.cpp lines 281–288). -/
def subpixel_ref.total_weight (r : subpixel_ref) (ps : pixel_samples) : ℕ :=
  ((square_pairs r).map (fun p => (ps.at_ p.1 p.2).weight)).sum

/-- The sampler state threaded through `subpixel_sample`: the grid and the
PRNG stream of the source, plus two instrumentation fields — the number of
camera rays cast and whether every `add` hit an empty cell. -/
structure samp_state where
  ps : pixel_samples
  prng : List ℚ
  rays : ℕ
  add_ok : Bool

/-- `sample_one` (renderer.cpp lines 320–346): take exactly one sample of
`pixel` — through its centre, jittered by ±¼ of its extent when the policy
says so — shade it (`shade_point` stands for
`shade(scene, cam.make_ray(point), policy, prng)`), and store it with the
given weight.  Returns the new state, the bucket cell, and the stored
sample. -/
def sample_one (shade_point : ℚ × ℚ → List ℚ → hdr_color × List ℚ)
    (jitter : Bool) (pixel : rectangle) (weight : ℕ) (st : samp_state) :
    samp_state × (ℕ × ℕ) × pixel_samples.sample :=
  let x_mu := pixel.width / 2
  let y_mu := pixel.height / 2
  let x_w := pixel.width / 4
  let y_w := pixel.height / 4
  let (offset, prng1) :=
    if jitter then
      let (u1, p1) := draw st.prng
      let (u2, p2) := draw p1
      ((x_mu + uniform_real (-x_w) x_w u1, y_mu + uniform_real (-y_w) y_w u2),
        p2)
    else ((x_mu, y_mu), st.prng)
  let point := (pixel.x + offset.1, pixel.y + offset.2)
  let (color, prng2) := shade_point point prng1
  match pixel_samples.add st.ps point ⟨color, weight⟩ with
  | (ps2, cell, ok) =>
    (⟨ps2, prng2, st.rays + 1, st.add_ok && ok⟩, cell, ⟨color, weight⟩)

/-- One iteration of the corner loop of `subpixel_sample` (renderer.cpp
lines 374–393): obtain-or-reweight a sample for corner `c` and fold it
into the channel-wise min/max accumulators. -/
def corner_step (shade_point : ℚ × ℚ → List ℚ → hdr_color × List ℚ)
    (jitter : Bool) (pixel : subpixel_ref) (weight_4 : ℕ)
    (acc : samp_state × hdr_color × hdr_color) (c : ℕ) :
    samp_state × hdr_color × hdr_color :=
  let (st, mn, mx) := acc
  let corner := pixel.corner c
  match corner.get_any st.ps with
  | none =>
    let (st2, _, s) :=
      sample_one shade_point jitter (corner.region st.ps) weight_4 st
    (st2, chan_min mn s.value, chan_max mx s.value)
  | some (x, y) =>
    let s : pixel_samples.sample := ⟨(st.ps.at_ x y).value, weight_4⟩
    ({ st with ps := st.ps.set_at x y s }, chan_min mn s.value,
      chan_max mx s.value)

/-- `subpixel_sample` (renderer.cpp lines 348–405): adaptive sampling of
one square sub-region.  `side = 0` cannot occur (the `subpixel_ref`
constructor asserts `is_power2(side)`); that arm returns the state
unchanged.  The two four-step loops over `subpixel_ref::corners` are the
`foldl` and the four chained recursive calls. -/
def subpixel_sample (fns : cmath)
    (shade_point : ℚ × ℚ → List ℚ → hdr_color × List ℚ) (jitter : Bool)
    (pixel : subpixel_ref) (st : samp_state) : samp_state :=
  let weight := pixel.side * pixel.side
  let weight_4 := weight / 4
  if pixel.side = 1 then
    match pixel.get_any st.ps with
    | none => (sample_one shade_point jitter (pixel.region st.ps) weight st).1
    | some (x, y) =>
      { st with ps := st.ps.set_at x y ⟨(st.ps.at_ x y).value, weight⟩ }
  else if h2 : 1 < pixel.side then
    let acc := [0, 1, 2, 3].foldl
      (corner_step shade_point jitter pixel weight_4)
      (st, ⟨dbl_max, dbl_max, dbl_max⟩, ⟨dbl_min, dbl_min, dbl_min⟩)
    let st1 := acc.1
    let max_distance : ℚ := 2 / 10
    let dist := color_distance fns acc.2.1 acc.2.2
    if dist > max_distance then
      let stA := subpixel_sample fns shade_point jitter (pixel.corner 0) st1
      let stB := subpixel_sample fns shade_point jitter (pixel.corner 1) stA
      let stC := subpixel_sample fns shade_point jitter (pixel.corner 2) stB
      subpixel_sample fns shade_point jitter (pixel.corner 3) stC
    else st1
  else st
termination_by pixel.side
decreasing_by
  all_goals
    simp only [subpixel_ref.corner]
    omega

/-- The sum of all weights in the grid — the quantity of the top-level
assert at renderer.cpp lines 414–417. -/
def grid_weight_sum (ps : pixel_samples) : ℕ :=
  (ps.samples.map pixel_samples.sample.weight).sum

/-- Componentwise colour division by a scalar (color.hpp `operator/=`). -/
def cdiv (a : hdr_color) (d : ℚ) : hdr_color := ⟨a.r / d, a.g / d, a.b / d⟩

/-- `oxatrace::sample` (renderer.cpp lines 407–424): the top-level
per-pixel entry point.  Returns the weighted average and (for the
theorems) the final sampler state. -/
def sample (fns : cmath)
    (shade_point : ℚ × ℚ → List ℚ → hdr_color × List ℚ)
    (policy : shading_policy) (pixel : rectangle) (prng : List ℚ) :
    hdr_color × samp_state :=
  let samples := pixel_samples.reset pixel policy.supersampling
  let st := subpixel_sample fns shade_point policy.jitter
    ⟨0, 0, samples.side⟩ ⟨samples, prng, 0, true⟩
  let sum := st.ps.samples.foldl
    (fun accum s => cadd accum (csmul s.value s.weight)) ⟨0, 0, 0⟩
  (cdiv sum st.ps.samples.length, st)

/-!
### Infrastructure for the sampler proofs
-/

/-- Cell `(x, y)` lies in the square region of `r`. -/
def in_square (r : subpixel_ref) (x y : ℕ) : Prop :=
  r.offset_x ≤ x ∧ x < r.offset_x + r.side ∧
  r.offset_y ≤ y ∧ y < r.offset_y + r.side

/-- Validity of the sampler state relative to the grid side `S`. -/
def grid_ok (ps : pixel_samples) (S : ℕ) : Prop :=
  ps.side = S ∧ 0 < S ∧ ps.samples.length = S * S ∧
  0 < ps.region.width ∧ 0 < ps.region.height

/-- At most one cell of the square has nonzero weight. -/
def sparse (ps : pixel_samples) (r : subpixel_ref) : Prop :=
  ∀ a b x y, in_square r a b → in_square r x y →
    0 < (ps.at_ a b).weight → 0 < (ps.at_ x y).weight → (a, b) = (x, y)

/-- Some cell of the square has nonzero weight. -/
def has_pos (ps : pixel_samples) (r : subpixel_ref) : Prop :=
  ∃ x y, in_square r x y ∧ 0 < (ps.at_ x y).weight

/-- Exactly one cell of the square has nonzero weight, and that weight is
`w`. -/
def one_pos (ps : pixel_samples) (r : subpixel_ref) (w : ℕ) : Prop :=
  ∃ x y, in_square r x y ∧ (ps.at_ x y).weight = w ∧
    ∀ a b, in_square r a b → (a, b) ≠ (x, y) → (ps.at_ a b).weight = 0

/-- All PRNG draws still pending are raw uniforms in `[0, 1)`. -/
def prng_ok (l : List ℚ) : Prop := ∀ u ∈ l, 0 ≤ u ∧ u < 1

/-- The shading oracle only consumes entropy from the PRNG stream (spec
section 4.1: "Side effects: none beyond consuming entropy from rng"). -/
def shade_consumes (shade_point : ℚ × ℚ → List ℚ → hdr_color × List ℚ) :
    Prop :=
  ∀ pt pr, ((shade_point pt pr).2).IsSuffix pr

lemma prng_ok_suffix {l l' : List ℚ} (h : l'.IsSuffix l) (hok : prng_ok l) :
    prng_ok l' := fun u hu => hok u (h.subset hu)

lemma prng_ok_tail {l : List ℚ} (hok : prng_ok l) : prng_ok l.tail :=
  prng_ok_suffix (List.tail_suffix l) hok

lemma draw_ok {l : List ℚ} (hok : prng_ok l) :
    0 ≤ (draw l).1 ∧ (draw l).1 < 1 := by
  rw [draw]
  cases l with
  | nil => norm_num
  | cons a t => exact hok a (List.mem_cons_self a t)

lemma mem_square_pairs {r : subpixel_ref} {p : ℕ × ℕ} :
    p ∈ square_pairs r ↔ in_square r p.1 p.2 := by
  rw [square_pairs, in_square]
  simp only [List.mem_flatMap, List.mem_map, List.mem_range]
  constructor
  · rintro ⟨dx, hdx, dy, hdy, rfl⟩
    omega
  · rintro ⟨h1, h2, h3, h4⟩
    exact ⟨p.1 - r.offset_x, by omega, p.2 - r.offset_y, by omega, by
      rcases p with ⟨a, b⟩
      simp only [Prod.mk.injEq]
      omega⟩

lemma square_pairs_nodup (r : subpixel_ref) : (square_pairs r).Nodup := by
  rw [square_pairs]
  apply List.nodup_flatMap.mpr
  constructor
  · intro dx _
    apply List.Nodup.map _ (List.nodup_range _)
    intro a b hab
    simpa using congrArg Prod.snd hab
  · apply List.Pairwise.imp _ (List.pairwise_lt_range _)
    intro dx dy hlt
    rintro ⟨a, b⟩ ha hb
    simp only [List.mem_map, List.mem_range] at ha hb
    obtain ⟨u, hu, hu2⟩ := ha
    obtain ⟨v, hv, hv2⟩ := hb
    have h1 := congrArg Prod.fst hu2
    have h2 := congrArg Prod.fst hv2
    simp only at h1 h2
    omega

lemma not_in_square_of_side_zero {r : subpixel_ref} (h : r.side = 0)
    (x y : ℕ) : ¬ in_square r x y := by
  rw [in_square]
  omega

/-- The grid is untouched outside the set cell. -/
lemma at_set_ne {ps : pixel_samples} {x y a b : ℕ} {s : pixel_samples.sample}
    (hx : x < ps.side) (ha : a < ps.side) (hne : (a, b) ≠ (x, y)) :
    (ps.set_at x y s).at_ a b = ps.at_ a b := by
  rw [pixel_samples.at_, pixel_samples.set_at, pixel_samples.at_]
  simp only
  have hidx : b * ps.side + a ≠ y * ps.side + x := by
    intro hcontra
    apply hne
    rw [Nat.mul_comm b ps.side, Nat.mul_comm y ps.side] at hcontra
    have hmod : (ps.side * b + a) % ps.side = (ps.side * y + x) % ps.side :=
      congrArg (· % ps.side) hcontra
    rw [Nat.mul_add_mod, Nat.mul_add_mod, Nat.mod_eq_of_lt ha,
      Nat.mod_eq_of_lt hx] at hmod
    subst hmod
    have hb : b = y := by
      have hps : 0 < ps.side := by omega
      have h2 := Nat.add_right_cancel hcontra
      exact Nat.eq_of_mul_eq_mul_left hps h2
    simp [hb]
  simp [List.getD_eq_getElem?_getD, List.getElem?_set_ne (Ne.symm hidx)]

lemma at_set_self {ps : pixel_samples} {x y : ℕ} {s : pixel_samples.sample}
    (hidx : y * ps.side + x < ps.samples.length) :
    (ps.set_at x y s).at_ x y = s := by
  rw [pixel_samples.at_, pixel_samples.set_at]
  simp [List.getD_eq_getElem?_getD, List.getElem?_set_self hidx]

lemma set_at_side (ps : pixel_samples) (x y : ℕ) (s : pixel_samples.sample) :
    (ps.set_at x y s).side = ps.side := rfl

lemma set_at_region (ps : pixel_samples) (x y : ℕ)
    (s : pixel_samples.sample) : (ps.set_at x y s).region = ps.region := rfl

lemma set_at_length (ps : pixel_samples) (x y : ℕ)
    (s : pixel_samples.sample) :
    (ps.set_at x y s).samples.length = ps.samples.length := by
  rw [pixel_samples.set_at]
  simp

lemma get_any_none {r : subpixel_ref} {ps : pixel_samples} :
    r.get_any ps = none ↔
      ∀ x y, in_square r x y → (ps.at_ x y).weight = 0 := by
  rw [subpixel_ref.get_any, List.find?_eq_none]
  constructor
  · intro h x y hin
    have := h (x, y) (mem_square_pairs.mpr hin)
    simpa using this
  · intro h p hp
    have := h p.1 p.2 (mem_square_pairs.mp hp)
    simp [this]

lemma get_any_some {r : subpixel_ref} {ps : pixel_samples} {x y : ℕ}
    (h : r.get_any ps = some (x, y)) :
    in_square r x y ∧ 0 < (ps.at_ x y).weight := by
  rw [subpixel_ref.get_any] at h
  refine ⟨mem_square_pairs.mp (List.mem_of_find?_eq_some h), ?_⟩
  have := List.find?_some h
  simpa using this

/-- Summing a nonnegative function that vanishes except at one point of a
duplicate-free list. -/
lemma sum_map_eq_single {α : Type} [DecidableEq α] (l : List α) (f : α → ℕ)
    (a : α) (ha : a ∈ l) (hnd : l.Nodup)
    (h0 : ∀ b ∈ l, b ≠ a → f b = 0) : (l.map f).sum = f a := by
  induction l with
  | nil => cases ha
  | cons c t ih =>
    rw [List.map_cons, List.sum_cons]
    rcases List.mem_cons.mp ha with rfl | hat
    · have ht : ∀ b ∈ t, f b = 0 := by
        intro b hb
        apply h0 b (List.mem_cons_of_mem _ hb)
        intro hcontra
        subst hcontra
        exact (List.nodup_cons.mp hnd).1 hb
      have : (t.map f).sum = 0 := by
        apply List.sum_eq_zero
        intro w hw
        obtain ⟨b, hb, rfl⟩ := List.mem_map.mp hw
        exact ht b hb
      omega
    · have hca : c ≠ a := by
        intro hcontra
        subst hcontra
        exact (List.nodup_cons.mp hnd).1 hat
      rw [h0 c (List.mem_cons_self _ _) hca,
        ih hat (List.nodup_cons.mp hnd).2
          (fun b hb => h0 b (List.mem_cons_of_mem _ hb))]
      omega

lemma sum_map_eq_zero {α : Type} (l : List α) (f : α → ℕ)
    (h0 : ∀ b ∈ l, f b = 0) : (l.map f).sum = 0 := by
  apply List.sum_eq_zero
  intro w hw
  obtain ⟨b, hb, rfl⟩ := List.mem_map.mp hw
  exact h0 b hb

lemma total_weight_of_one_pos {ps : pixel_samples} {r : subpixel_ref}
    {w : ℕ} (h : one_pos ps r w) : r.total_weight ps = w := by
  obtain ⟨x, y, hin, hw, hrest⟩ := h
  rw [subpixel_ref.total_weight]
  rw [sum_map_eq_single (square_pairs r) _ (x, y) (mem_square_pairs.mpr hin)
    (square_pairs_nodup r)]
  · exact hw
  · rintro ⟨a, b⟩ hab hne
    exact hrest a b (mem_square_pairs.mp hab) hne

lemma total_weight_of_all_zero {ps : pixel_samples} {r : subpixel_ref}
    (h : ∀ x y, in_square r x y → (ps.at_ x y).weight = 0) :
    r.total_weight ps = 0 := by
  rw [subpixel_ref.total_weight]
  apply sum_map_eq_zero
  rintro ⟨a, b⟩ hab
  exact h a b (mem_square_pairs.mp hab)

/-- Congruence: every square-level notion only depends on the cells of the
square. -/
lemma total_weight_congr {ps ps' : pixel_samples} {r : subpixel_ref}
    (h : ∀ x y, in_square r x y → ps'.at_ x y = ps.at_ x y) :
    r.total_weight ps' = r.total_weight ps := by
  rw [subpixel_ref.total_weight, subpixel_ref.total_weight]
  congr 1
  apply List.map_congr_left
  rintro ⟨a, b⟩ hab
  rw [h a b (mem_square_pairs.mp hab)]

lemma sparse_congr {ps ps' : pixel_samples} {r : subpixel_ref}
    (h : ∀ x y, in_square r x y → ps'.at_ x y = ps.at_ x y)
    (hs : sparse ps r) : sparse ps' r := by
  intro a b x y h1 h2 h3 h4
  rw [h a b h1] at h3
  rw [h x y h2] at h4
  exact hs a b x y h1 h2 h3 h4

lemma has_pos_congr {ps ps' : pixel_samples} {r : subpixel_ref}
    (h : ∀ x y, in_square r x y → ps'.at_ x y = ps.at_ x y)
    (hs : has_pos ps r) : has_pos ps' r := by
  obtain ⟨x, y, hin, hw⟩ := hs
  exact ⟨x, y, hin, by rw [h x y hin]; exact hw⟩

lemma one_pos_congr {ps ps' : pixel_samples} {r : subpixel_ref} {w : ℕ}
    (h : ∀ x y, in_square r x y → ps'.at_ x y = ps.at_ x y)
    (hs : one_pos ps r w) : one_pos ps' r w := by
  obtain ⟨x, y, hin, hw, hrest⟩ := hs
  exact ⟨x, y, hin, by rw [h x y hin]; exact hw,
    fun a b hab hne => by rw [h a b hab]; exact hrest a b hab hne⟩

lemma sparse_subset {ps : pixel_samples} {r r' : subpixel_ref}
    (hsub : ∀ x y, in_square r' x y → in_square r x y)
    (hs : sparse ps r) : sparse ps r' :=
  fun a b x y h1 h2 h3 h4 =>
    hs a b x y (hsub a b h1) (hsub x y h2) h3 h4

/-!
### Geometry of the corner decomposition
-/

lemma corner_side {r : subpixel_ref} {m : ℕ} (hside : r.side = 2 * m)
    (c : ℕ) : (r.corner c).side = m := by
  rw [subpixel_ref.corner]
  simp only [hside]
  omega

lemma corner_in_square {r : subpixel_ref} {m : ℕ} (hside : r.side = 2 * m)
    {c : ℕ} (hc : c < 4) {x y : ℕ} (h : in_square (r.corner c) x y) :
    in_square r x y := by
  rw [in_square, subpixel_ref.corner] at h
  rw [in_square]
  simp only [hside] at h ⊢
  interval_cases c <;> simp at h <;> omega

lemma corners_disjoint {r : subpixel_ref} {m : ℕ} (hside : r.side = 2 * m)
    {c c2 : ℕ} (hc : c < 4) (hc2 : c2 < 4) (hne : c ≠ c2) {x y : ℕ}
    (h1 : in_square (r.corner c) x y) (h2 : in_square (r.corner c2) x y) :
    False := by
  rw [in_square, subpixel_ref.corner] at h1 h2
  simp only [hside] at h1 h2
  interval_cases c <;> interval_cases c2 <;> simp_all <;> omega

lemma square_cover {r : subpixel_ref} {m : ℕ} (hside : r.side = 2 * m)
    {x y : ℕ} (h : in_square r x y) :
    in_square (r.corner 0) x y ∨ in_square (r.corner 1) x y ∨
    in_square (r.corner 2) x y ∨ in_square (r.corner 3) x y := by
  rw [in_square] at h
  rw [in_square, in_square, in_square, in_square, subpixel_ref.corner,
    subpixel_ref.corner, subpixel_ref.corner, subpixel_ref.corner]
  simp only [hside] at h ⊢
  norm_num
  omega

lemma square_pairs_corners_perm {r : subpixel_ref} {m : ℕ}
    (hside : r.side = 2 * m) :
    List.Perm (square_pairs r)
      ((square_pairs (r.corner 0) ++ square_pairs (r.corner 1)) ++
      (square_pairs (r.corner 2) ++ square_pairs (r.corner 3))) := by
  have hnd : ∀ c : ℕ, (square_pairs (r.corner c)).Nodup :=
    fun c => square_pairs_nodup _
  have hdisj : ∀ c c2 : ℕ, c < 4 → c2 < 4 → c ≠ c2 →
      List.Disjoint (square_pairs (r.corner c))
        (square_pairs (r.corner c2)) := by
    intro c c2 hc hc2 hne p hp hp2
    exact corners_disjoint hside hc hc2 hne (mem_square_pairs.mp hp)
      (mem_square_pairs.mp hp2)
  apply List.perm_of_nodup_nodup_toFinset_eq (square_pairs_nodup r)
  · refine List.Nodup.append (List.Nodup.append (hnd 0) (hnd 1) ?_)
      (List.Nodup.append (hnd 2) (hnd 3) ?_) ?_
    · exact hdisj 0 1 (by norm_num) (by norm_num) (by norm_num)
    · exact hdisj 2 3 (by norm_num) (by norm_num) (by norm_num)
    · intro p hp hp2
      rcases List.mem_append.mp hp with ha | hb <;>
        rcases List.mem_append.mp hp2 with hc | hd
      · exact hdisj 0 2 (by norm_num) (by norm_num) (by norm_num) ha hc
      · exact hdisj 0 3 (by norm_num) (by norm_num) (by norm_num) ha hd
      · exact hdisj 1 2 (by norm_num) (by norm_num) (by norm_num) hb hc
      · exact hdisj 1 3 (by norm_num) (by norm_num) (by norm_num) hb hd
  · ext p
    simp only [List.mem_toFinset, List.mem_append, mem_square_pairs]
    constructor
    · intro h
      rcases square_cover hside h with h0 | h1 | h2 | h3
      · exact Or.inl (Or.inl h0)
      · exact Or.inl (Or.inr h1)
      · exact Or.inr (Or.inl h2)
      · exact Or.inr (Or.inr h3)
    · rintro ((h | h) | (h | h))
      · exact corner_in_square hside (by norm_num) h
      · exact corner_in_square hside (by norm_num) h
      · exact corner_in_square hside (by norm_num) h
      · exact corner_in_square hside (by norm_num) h

lemma total_weight_corners {ps : pixel_samples} {r : subpixel_ref} {m : ℕ}
    (hside : r.side = 2 * m) :
    r.total_weight ps =
      (r.corner 0).total_weight ps + (r.corner 1).total_weight ps +
      (r.corner 2).total_weight ps + (r.corner 3).total_weight ps := by
  rw [subpixel_ref.total_weight]
  rw [((square_pairs_corners_perm hside).map
    (fun p => (ps.at_ p.1 p.2).weight)).sum_eq]
  simp only [List.map_append, List.sum_append]
  rw [subpixel_ref.total_weight, subpixel_ref.total_weight,
    subpixel_ref.total_weight, subpixel_ref.total_weight]
  ring

/-!
### The bucket of a sample point (`pixel_samples::add`)
-/

lemma floor_bucket {W : ℚ} (hW : 0 < W) {S : ℕ} (hS : 0 < S)
    (ox : ℕ) {side : ℕ} {dx : ℚ} (hdx0 : 0 ≤ dx)
    (hdx1 : dx < side * (W / S)) :
    (⌊((ox : ℚ) * (W / S) + dx) * S / W⌋).toNat =
      ox + (⌊dx * S / W⌋).toNat ∧
    (⌊dx * S / W⌋).toNat < side := by
  have hSQ : (0 : ℚ) < S := by exact_mod_cast hS
  have hq0 : 0 ≤ dx * S / W := by positivity
  have hq1 : dx * S / W < side := by
    rw [div_lt_iff₀ hW]
    calc dx * S < (side * (W / S)) * S := by
          apply mul_lt_mul_of_pos_right hdx1 hSQ
      _ = side * W := by field_simp
  have hfl0 : 0 ≤ ⌊dx * S / W⌋ := Int.floor_nonneg.mpr hq0
  have hfl1 : ⌊dx * S / W⌋ < (side : ℤ) := by
    rw [Int.floor_lt]
    exact_mod_cast hq1
  refine ⟨?_, by omega⟩
  have heq : ((ox : ℚ) * (W / S) + dx) * S / W = (ox : ℚ) + dx * S / W := by
    field_simp
  rw [heq, add_comm ((ox : ℚ)) (dx * S / W), Int.floor_add_nat,
    Int.toNat_add hfl0 (by positivity)]
  simp [Nat.add_comm]

lemma region_width {r : subpixel_ref} {ps : pixel_samples} :
    (r.region ps).width = r.side * (ps.region.width / ps.side) := rfl

lemma region_height {r : subpixel_ref} {ps : pixel_samples} :
    (r.region ps).height = r.side * (ps.region.height / ps.side) := rfl

lemma region_x {r : subpixel_ref} {ps : pixel_samples} :
    (r.region ps).x = ps.region.x + r.offset_x * (ps.region.width / ps.side) :=
  rfl

lemma region_y {r : subpixel_ref} {ps : pixel_samples} :
    (r.region ps).y =
      ps.region.y + r.offset_y * (ps.region.height / ps.side) := rfl

/-- Any point strictly inside the region of the sub-square `r` is bucketed
by `pixel_samples::add` into a cell of `r`'s square (and the `weight == 0`
assert flag is reported for exactly that cell). -/
lemma add_bucket {ps : pixel_samples} {S : ℕ} (hg : grid_ok ps S)
    {r : subpixel_ref} (hxb : r.offset_x + r.side ≤ S)
    (hyb : r.offset_y + r.side ≤ S)
    (dx dy : ℚ) (hdx0 : 0 ≤ dx) (hdx1 : dx < (r.region ps).width)
    (hdy0 : 0 ≤ dy) (hdy1 : dy < (r.region ps).height)
    (smp : pixel_samples.sample) :
    ∃ x y, in_square r x y ∧
      ps.add ((r.region ps).x + dx, (r.region ps).y + dy) smp =
        (ps.set_at x y smp, (x, y), decide ((ps.at_ x y).weight = 0)) := by
  obtain ⟨hside, hS, hlen, hW, hH⟩ := hg
  have hdx1a : dx < r.side * (ps.region.width / S) := by
    rw [region_width, hside] at hdx1
    exact hdx1
  have hdy1a : dy < r.side * (ps.region.height / S) := by
    rw [region_height, hside] at hdy1
    exact hdy1
  obtain ⟨hxeq, hxlt⟩ := floor_bucket hW hS r.offset_x hdx0 hdx1a
  obtain ⟨hyeq, hylt⟩ := floor_bucket hH hS r.offset_y hdy0 hdy1a
  refine ⟨r.offset_x + (⌊dx * S / ps.region.width⌋).toNat,
    r.offset_y + (⌊dy * S / ps.region.height⌋).toNat, ?_, ?_⟩
  · rw [in_square]
    omega
  · have hcx : (⌊((r.region ps).x + dx - ps.region.x) * ps.side /
        ps.region.width⌋).toNat =
        r.offset_x + (⌊dx * S / ps.region.width⌋).toNat := by
      have harg : (r.region ps).x + dx - ps.region.x =
          (r.offset_x : ℚ) * (ps.region.width / S) + dx := by
        rw [region_x, hside]
        ring
      rw [harg, hside]
      exact hxeq
    have hcy : (⌊((r.region ps).y + dy - ps.region.y) * ps.side /
        ps.region.height⌋).toNat =
        r.offset_y + (⌊dy * S / ps.region.height⌋).toNat := by
      have harg : (r.region ps).y + dy - ps.region.y =
          (r.offset_y : ℚ) * (ps.region.height / S) + dy := by
        rw [region_y, hside]
        ring
      rw [harg, hside]
      exact hyeq
    simp only [pixel_samples.add]
    rw [hcx, hcy]

/-- What `sample_one` does, given that the PRNG stream is well-behaved: it
shades one point strictly inside the target region, stores the sample at a
bucket inside the region's square, counts one ray, and records whether the
bucket cell was empty. -/
lemma sample_one_spec {S : ℕ} {st : samp_state} (hg : grid_ok st.ps S)
    {shade_point : ℚ × ℚ → List ℚ → hdr_color × List ℚ}
    (hshade : shade_consumes shade_point) (jitter : Bool)
    {r : subpixel_ref} (hxb : r.offset_x + r.side ≤ S)
    (hyb : r.offset_y + r.side ≤ S) (hs : 0 < r.side)
    (hprng : prng_ok st.prng) (w : ℕ) :
    ∃ x y col prng2, in_square r x y ∧
      sample_one shade_point jitter (r.region st.ps) w st =
        (⟨st.ps.set_at x y ⟨col, w⟩, prng2, st.rays + 1,
          st.add_ok && decide ((st.ps.at_ x y).weight = 0)⟩, (x, y),
          ⟨col, w⟩) ∧
      prng2.IsSuffix st.prng := by
  obtain ⟨hside, hS, hlen, hW, hH⟩ := hg
  have hsq : (0 : ℚ) < r.side := by exact_mod_cast hs
  have hSq : (0 : ℚ) < S := by exact_mod_cast hS
  have hpw : 0 < (r.region st.ps).width := by
    rw [region_width, hside]
    positivity
  have hph : 0 < (r.region st.ps).height := by
    rw [region_height, hside]
    positivity
  cases jitter with
  | false =>
    obtain ⟨col, prng2, hsp⟩ :
        ∃ c p2, shade_point ((r.region st.ps).x + (r.region st.ps).width / 2,
          (r.region st.ps).y + (r.region st.ps).height / 2) st.prng =
          (c, p2) := ⟨_, _, rfl⟩
    obtain ⟨x, y, hin, heq⟩ := add_bucket ⟨hside, hS, hlen, hW, hH⟩ hxb hyb
      ((r.region st.ps).width / 2) ((r.region st.ps).height / 2)
      (by positivity) (by linarith) (by positivity) (by linarith)
      ⟨col, w⟩
    refine ⟨x, y, col, prng2, hin, ?_, ?_⟩
    · unfold sample_one
      simp only [Bool.false_eq_true, if_false, hsp, heq]
    · have := hshade ((r.region st.ps).x + (r.region st.ps).width / 2,
        (r.region st.ps).y + (r.region st.ps).height / 2) st.prng
      rw [hsp] at this
      exact this
  | true =>
    obtain ⟨hu10, hu11⟩ := draw_ok hprng
    obtain ⟨hu20, hu21⟩ := draw_ok (prng_ok_tail hprng)
    rw [draw] at hu10 hu11
    rw [draw] at hu20 hu21
    simp only at hu10 hu11 hu20 hu21
    have hoffx0 : 0 ≤ (r.region st.ps).width / 2 +
        uniform_real (-((r.region st.ps).width / 4))
          ((r.region st.ps).width / 4) (st.prng.headD 0) := by
      rw [uniform_real]
      nlinarith
    have hoffx1 : (r.region st.ps).width / 2 +
        uniform_real (-((r.region st.ps).width / 4))
          ((r.region st.ps).width / 4) (st.prng.headD 0) <
        (r.region st.ps).width := by
      rw [uniform_real]
      nlinarith
    have hoffy0 : 0 ≤ (r.region st.ps).height / 2 +
        uniform_real (-((r.region st.ps).height / 4))
          ((r.region st.ps).height / 4) (st.prng.tail.headD 0) := by
      rw [uniform_real]
      nlinarith
    have hoffy1 : (r.region st.ps).height / 2 +
        uniform_real (-((r.region st.ps).height / 4))
          ((r.region st.ps).height / 4) (st.prng.tail.headD 0) <
        (r.region st.ps).height := by
      rw [uniform_real]
      nlinarith
    obtain ⟨col, prng2, hsp⟩ :
        ∃ c p2, shade_point
          ((r.region st.ps).x + ((r.region st.ps).width / 2 +
            uniform_real (-((r.region st.ps).width / 4))
              ((r.region st.ps).width / 4) (st.prng.headD 0)),
           (r.region st.ps).y + ((r.region st.ps).height / 2 +
            uniform_real (-((r.region st.ps).height / 4))
              ((r.region st.ps).height / 4) (st.prng.tail.headD 0)))
          st.prng.tail.tail = (c, p2) := ⟨_, _, rfl⟩
    obtain ⟨x, y, hin, heq⟩ := add_bucket ⟨hside, hS, hlen, hW, hH⟩ hxb hyb
      ((r.region st.ps).width / 2 +
        uniform_real (-((r.region st.ps).width / 4))
          ((r.region st.ps).width / 4) (st.prng.headD 0))
      ((r.region st.ps).height / 2 +
        uniform_real (-((r.region st.ps).height / 4))
          ((r.region st.ps).height / 4) (st.prng.tail.headD 0))
      hoffx0 hoffx1 hoffy0 hoffy1 ⟨col, w⟩
    refine ⟨x, y, col, prng2, hin, ?_, ?_⟩
    · unfold sample_one
      simp only [if_true, draw, hsp, heq]
    · have := hshade
        ((r.region st.ps).x + ((r.region st.ps).width / 2 +
          uniform_real (-((r.region st.ps).width / 4))
            ((r.region st.ps).width / 4) (st.prng.headD 0)),
         (r.region st.ps).y + ((r.region st.ps).height / 2 +
          uniform_real (-((r.region st.ps).height / 4))
            ((r.region st.ps).height / 4) (st.prng.tail.headD 0)))
        st.prng.tail.tail
      rw [hsp] at this
      exact this.trans ((List.tail_suffix _).trans (List.tail_suffix _))

lemma corner_bounds {pixel : subpixel_ref} {m : ℕ}
    (hside : pixel.side = 2 * m) {S : ℕ}
    (hxb : pixel.offset_x + pixel.side ≤ S)
    (hyb : pixel.offset_y + pixel.side ≤ S) {c : ℕ} (hc : c < 4) :
    (pixel.corner c).offset_x + (pixel.corner c).side ≤ S ∧
    (pixel.corner c).offset_y + (pixel.corner c).side ≤ S := by
  rw [subpixel_ref.corner]
  simp only [hside] at hxb hyb ⊢
  interval_cases c <;> simp <;> omega

lemma in_square_lt {r : subpixel_ref} {S : ℕ}
    (hxb : r.offset_x + r.side ≤ S) (hyb : r.offset_y + r.side ≤ S)
    {x y : ℕ} (h : in_square r x y) : x < S ∧ y < S := by
  rw [in_square] at h
  omega

/-- Effect of one corner-loop step on the sampler state. -/
lemma corner_step_spec {S : ℕ} {st : samp_state} (hg : grid_ok st.ps S)
    {shade_point : ℚ × ℚ → List ℚ → hdr_color × List ℚ}
    (hshade : shade_consumes shade_point) (jitter : Bool)
    {pixel : subpixel_ref} {m : ℕ} (hside : pixel.side = 2 * m) (hm : 0 < m)
    (hxb : pixel.offset_x + pixel.side ≤ S)
    (hyb : pixel.offset_y + pixel.side ≤ S)
    {c : ℕ} (hc : c < 4)
    (hsp : sparse st.ps (pixel.corner c))
    (hprng : prng_ok st.prng)
    {w4 : ℕ} (hw4 : 0 < w4) (mn mx : hdr_color) (st2 : samp_state)
    (hst2 : st2 = (corner_step shade_point jitter pixel w4 (st, mn, mx) c).1) :
    grid_ok st2.ps S ∧
    (∀ a b, a < S → b < S → ¬ in_square (pixel.corner c) a b →
      st2.ps.at_ a b = st.ps.at_ a b) ∧
    one_pos st2.ps (pixel.corner c) w4 ∧
    (has_pos st.ps (pixel.corner c) → st2.rays = st.rays) ∧
    (¬ has_pos st.ps (pixel.corner c) → st2.rays = st.rays + 1) ∧
    (st.add_ok = true → st2.add_ok = true) ∧
    st2.prng.IsSuffix st.prng := by
  obtain ⟨hcxb, hcyb⟩ := corner_bounds hside hxb hyb hc
  have hcs : 0 < (pixel.corner c).side := by
    rw [corner_side hside]
    exact hm
  obtain ⟨hside2, hS, hlen, hW, hH⟩ := hg
  have hgok : grid_ok st.ps S := ⟨hside2, hS, hlen, hW, hH⟩
  rw [corner_step] at hst2
  simp only at hst2
  cases hga : (pixel.corner c).get_any st.ps with
  | none =>
    have hzero := get_any_none.mp hga
    obtain ⟨x, y, col, prng2, hin, heq, hsuf⟩ :=
      sample_one_spec hgok hshade jitter hcxb hcyb hcs hprng w4
    rw [hga] at hst2
    simp only [heq] at hst2
    subst hst2
    have hxS := (in_square_lt hcxb hcyb hin).1
    have hyS := (in_square_lt hcxb hcyb hin).2
    have hxside : x < st.ps.side := by rw [hside2]; exact hxS
    have hidx : y * st.ps.side + x < st.ps.samples.length := by
      rw [hlen, hside2]
      calc y * S + x < y * S + S := by omega
        _ = (y + 1) * S := by ring
        _ ≤ S * S := by
            apply Nat.mul_le_mul_right
            omega
    refine ⟨?_, ?_, ?_, ?_, ?_, ?_, ?_⟩
    · refine ⟨hside2, hS, ?_, hW, hH⟩
      rw [set_at_length]
      exact hlen
    · intro a b haS hbS hnotin
      apply at_set_ne hxside (by rw [hside2]; exact haS)
      intro hcontra
      apply hnotin
      cases hcontra
      exact hin
    · refine ⟨x, y, hin, ?_, ?_⟩
      · rw [at_set_self hidx]
      · intro a b hab hne
        rw [at_set_ne hxside (by
          rw [hside2]; exact (in_square_lt hcxb hcyb hab).1) hne]
        exact hzero a b hab
    · intro hpos
      exfalso
      obtain ⟨a, b, hab, hwpos⟩ := hpos
      rw [hzero a b hab] at hwpos
      omega
    · intro _
      rfl
    · intro hok
      simp only [hok, Bool.true_and]
      rw [hzero x y hin]
      simp
    · exact hsuf
  | some p =>
    rcases p with ⟨x, y⟩
    obtain ⟨hin, hwpos⟩ := get_any_some hga
    rw [hga] at hst2
    simp only at hst2
    subst hst2
    have hxS := (in_square_lt hcxb hcyb hin).1
    have hxside : x < st.ps.side := by rw [hside2]; exact hxS
    have hidx : y * st.ps.side + x < st.ps.samples.length := by
      have hyS := (in_square_lt hcxb hcyb hin).2
      rw [hlen, hside2]
      calc y * S + x < y * S + S := by omega
        _ = (y + 1) * S := by ring
        _ ≤ S * S := by
            apply Nat.mul_le_mul_right
            omega
    refine ⟨?_, ?_, ?_, ?_, ?_, ?_, ?_⟩
    · refine ⟨hside2, hS, ?_, hW, hH⟩
      rw [set_at_length]
      exact hlen
    · intro a b haS hbS hnotin
      apply at_set_ne hxside (by rw [hside2]; exact haS)
      intro hcontra
      apply hnotin
      cases hcontra
      exact hin
    · refine ⟨x, y, hin, ?_, ?_⟩
      · rw [at_set_self hidx]
      · intro a b hab hne
        rw [at_set_ne hxside (by
          rw [hside2]; exact (in_square_lt hcxb hcyb hab).1) hne]
        by_contra hnz
        exact hne (hsp a b x y hab hin (by omega) hwpos)
    · intro _
      rfl
    · intro hnopos
      exact absurd ⟨x, y, hin, hwpos⟩ hnopos
    · intro hok
      exact hok
    · exact List.suffix_refl _

lemma not_in_corner {pixel : subpixel_ref} {m : ℕ}
    (hside : pixel.side = 2 * m) {c : ℕ} (hc : c < 4) {a b : ℕ}
    (h : ¬ in_square pixel a b) : ¬ in_square (pixel.corner c) a b :=
  fun hin => h (corner_in_square hside hc hin)

/-- Effect of the whole four-corner loop of `subpixel_sample`'s interior
case. -/
lemma corner_pass_spec {S : ℕ} {st : samp_state} (hg : grid_ok st.ps S)
    {shade_point : ℚ × ℚ → List ℚ → hdr_color × List ℚ}
    (hshade : shade_consumes shade_point) (jitter : Bool)
    {pixel : subpixel_ref} {m : ℕ} (hside : pixel.side = 2 * m) (hm : 0 < m)
    (hxb : pixel.offset_x + pixel.side ≤ S)
    (hyb : pixel.offset_y + pixel.side ≤ S)
    (hsparse : sparse st.ps pixel)
    (hprng : prng_ok st.prng)
    {w4 : ℕ} (hw4 : 0 < w4) (mn0 mx0 : hdr_color) (st1 : samp_state)
    (hst1 : st1 = ([0, 1, 2, 3].foldl
      (corner_step shade_point jitter pixel w4) (st, mn0, mx0)).1) :
    grid_ok st1.ps S ∧
    (∀ a b, a < S → b < S → ¬ in_square pixel a b →
      st1.ps.at_ a b = st.ps.at_ a b) ∧
    (∀ c, c < 4 → one_pos st1.ps (pixel.corner c) w4) ∧
    ((has_pos st.ps pixel → st1.rays + 1 ≤ st.rays + 4) ∧
      st1.rays ≤ st.rays + 4) ∧
    (st.add_ok = true → st1.add_ok = true) ∧
    st1.prng.IsSuffix st.prng := by
  have hfold : ([0, 1, 2, 3].foldl
      (corner_step shade_point jitter pixel w4) (st, mn0, mx0)) =
      corner_step shade_point jitter pixel w4
        (corner_step shade_point jitter pixel w4
          (corner_step shade_point jitter pixel w4
            (corner_step shade_point jitter pixel w4 (st, mn0, mx0) 0) 1) 2)
        3 := by
    simp [List.foldl]
  rw [hfold] at hst1
  have hsub : ∀ c : ℕ, c < 4 →
      ∀ x y, in_square (pixel.corner c) x y → in_square pixel x y :=
    fun c hc x y h => corner_in_square hside hc h
  have hcinS : ∀ c : ℕ, c < 4 → ∀ x y, in_square (pixel.corner c) x y →
      x < S ∧ y < S := by
    intro c hc x y h
    exact in_square_lt hxb hyb (hsub c hc x y h)
  -- step 0
  rcases hA : corner_step shade_point jitter pixel w4 (st, mn0, mx0) 0
    with ⟨stA, mnA, mxA⟩
  obtain ⟨hgA, hlocA, honeA, hraysA, hraysA2, hokA, hsufA⟩ :=
    corner_step_spec hg hshade jitter hside hm hxb hyb (by norm_num)
      (sparse_subset (hsub 0 (by norm_num)) hsparse) hprng hw4 mn0 mx0 stA
      (by rw [hA])
  -- cells of corners 1,2,3 are unchanged by step 0
  have keepA : ∀ c : ℕ, c < 4 → c ≠ 0 →
      ∀ x y, in_square (pixel.corner c) x y →
        stA.ps.at_ x y = st.ps.at_ x y := by
    intro c hc hne x y h
    exact hlocA x y (hcinS c hc x y h).1 (hcinS c hc x y h).2
      (fun h0 => corners_disjoint hside hc (by norm_num) hne h h0)
  -- step 1
  rcases hB : corner_step shade_point jitter pixel w4 (stA, mnA, mxA) 1
    with ⟨stB, mnB, mxB⟩
  obtain ⟨hgB, hlocB, honeB, hraysB, hraysB2, hokB, hsufB⟩ :=
    corner_step_spec hgA hshade jitter hside hm hxb hyb (by norm_num)
      (sparse_congr (keepA 1 (by norm_num) (by norm_num))
        (sparse_subset (hsub 1 (by norm_num)) hsparse))
      (prng_ok_suffix hsufA hprng) hw4 mnA mxA stB (by rw [hB])
  have keepB : ∀ c : ℕ, c < 4 → c ≠ 1 →
      ∀ x y, in_square (pixel.corner c) x y →
        stB.ps.at_ x y = stA.ps.at_ x y := by
    intro c hc hne x y h
    exact hlocB x y (hcinS c hc x y h).1 (hcinS c hc x y h).2
      (fun h0 => corners_disjoint hside hc (by norm_num) hne h h0)
  -- step 2
  rcases hC : corner_step shade_point jitter pixel w4 (stB, mnB, mxB) 2
    with ⟨stC, mnC, mxC⟩
  obtain ⟨hgC, hlocC, honeC, hraysC, hraysC2, hokC, hsufC⟩ :=
    corner_step_spec hgB hshade jitter hside hm hxb hyb (by norm_num)
      (sparse_congr (fun x y h =>
        (keepB 2 (by norm_num) (by norm_num) x y h).trans
          (keepA 2 (by norm_num) (by norm_num) x y h))
        (sparse_subset (hsub 2 (by norm_num)) hsparse))
      (prng_ok_suffix (hsufB.trans hsufA) hprng) hw4 mnB mxB stC
      (by rw [hC])
  have keepC : ∀ c : ℕ, c < 4 → c ≠ 2 →
      ∀ x y, in_square (pixel.corner c) x y →
        stC.ps.at_ x y = stB.ps.at_ x y := by
    intro c hc hne x y h
    exact hlocC x y (hcinS c hc x y h).1 (hcinS c hc x y h).2
      (fun h0 => corners_disjoint hside hc (by norm_num) hne h h0)
  -- step 3
  obtain ⟨hgD, hlocD, honeD, hraysD, hraysD2, hokD, hsufD⟩ :=
    corner_step_spec hgC hshade jitter hside hm hxb hyb (by norm_num)
      (sparse_congr (fun x y h =>
        ((keepC 3 (by norm_num) (by norm_num) x y h).trans
          (keepB 3 (by norm_num) (by norm_num) x y h)).trans
          (keepA 3 (by norm_num) (by norm_num) x y h))
        (sparse_subset (hsub 3 (by norm_num)) hsparse))
      (prng_ok_suffix ((hsufC.trans hsufB).trans hsufA) hprng) hw4 mnC mxC
      st1 (by rw [hA, hB, hC] at hst1; exact hst1)
  have keepD : ∀ c : ℕ, c < 4 → c ≠ 3 →
      ∀ x y, in_square (pixel.corner c) x y →
        st1.ps.at_ x y = stC.ps.at_ x y := by
    intro c hc hne x y h
    exact hlocD x y (hcinS c hc x y h).1 (hcinS c hc x y h).2
      (fun h0 => corners_disjoint hside hc (by norm_num) hne h h0)
  refine ⟨hgD, ?_, ?_, ?_, ?_, ?_⟩
  · -- locality outside the big square
    intro a b haS hbS hnot
    rw [hlocD a b haS hbS (not_in_corner hside (by norm_num) hnot),
      hlocC a b haS hbS (not_in_corner hside (by norm_num) hnot),
      hlocB a b haS hbS (not_in_corner hside (by norm_num) hnot),
      hlocA a b haS hbS (not_in_corner hside (by norm_num) hnot)]
  · -- every corner holds exactly one positive cell of weight w4
    intro c hc
    interval_cases c
    · exact one_pos_congr (fun x y h =>
        (keepD 0 (by norm_num) (by norm_num) x y h).trans
          ((keepC 0 (by norm_num) (by norm_num) x y h).trans
            (keepB 0 (by norm_num) (by norm_num) x y h))) honeA
    · exact one_pos_congr (fun x y h =>
        (keepD 1 (by norm_num) (by norm_num) x y h).trans
          (keepC 1 (by norm_num) (by norm_num) x y h)) honeB
    · exact one_pos_congr
        (fun x y h => keepD 2 (by norm_num) (by norm_num) x y h) honeC
    · exact honeD
  · -- ray-count bookkeeping
    have hA1 : stA.rays ≤ st.rays + 1 := by
      by_cases hp : has_pos st.ps (pixel.corner 0)
      · rw [hraysA hp]; omega
      · rw [hraysA2 hp]
    have hB1 : stB.rays ≤ stA.rays + 1 := by
      by_cases hp : has_pos stA.ps (pixel.corner 1)
      · rw [hraysB hp]; omega
      · rw [hraysB2 hp]
    have hC1 : stC.rays ≤ stB.rays + 1 := by
      by_cases hp : has_pos stB.ps (pixel.corner 2)
      · rw [hraysC hp]; omega
      · rw [hraysC2 hp]
    have hD1 : st1.rays ≤ stC.rays + 1 := by
      by_cases hp : has_pos stC.ps (pixel.corner 3)
      · rw [hraysD hp]; omega
      · rw [hraysD2 hp]
    refine ⟨?_, by omega⟩
    intro hpos
    obtain ⟨a, b, hin, hwpos⟩ := hpos
    rcases square_cover hside hin with h0 | h1 | h2 | h3
    · have := hraysA ⟨a, b, h0, hwpos⟩
      omega
    · have hkeep := keepA 1 (by norm_num) (by norm_num) a b h1
      have := hraysB ⟨a, b, h1, by rw [hkeep]; exact hwpos⟩
      omega
    · have hkeep := (keepB 2 (by norm_num) (by norm_num) a b h2).trans
        (keepA 2 (by norm_num) (by norm_num) a b h2)
      have := hraysC ⟨a, b, h2, by rw [hkeep]; exact hwpos⟩
      omega
    · have hkeep := ((keepC 3 (by norm_num) (by norm_num) a b h3).trans
        (keepB 3 (by norm_num) (by norm_num) a b h3)).trans
        (keepA 3 (by norm_num) (by norm_num) a b h3)
      have := hraysD ⟨a, b, h3, by rw [hkeep]; exact hwpos⟩
      omega
  · exact fun h => hokD (hokC (hokB (hokA h)))
  · exact ((hsufD.trans hsufC).trans hsufB).trans hsufA

lemma one_pos_sparse {ps : pixel_samples} {r : subpixel_ref} {w : ℕ}
    (h : one_pos ps r w) : sparse ps r := by
  obtain ⟨x, y, hin, hw, hrest⟩ := h
  intro a b u v hab huv hpa hpu
  have h1 : (a, b) = (x, y) := by
    by_contra hne
    rw [hrest a b hab hne] at hpa
    omega
  have h2 : (u, v) = (x, y) := by
    by_contra hne
    rw [hrest u v huv hne] at hpu
    omega
  rw [h1, h2]

lemma one_pos_has_pos {ps : pixel_samples} {r : subpixel_ref} {w : ℕ}
    (hw : 0 < w) (h : one_pos ps r w) : has_pos ps r := by
  obtain ⟨x, y, hin, hweq, _⟩ := h
  exact ⟨x, y, hin, by omega⟩

/-- The central invariant of `subpixel_sample`: starting from a state whose
square region of side `2^k` holds at most one filled cell, it fills the
region to total weight `side²`, touches nothing outside the region, casts
at most `side²` rays (one fewer when a sample was already present), keeps
every `add` assertion true, only consumes PRNG entropy — and for
`side ≤ 2` fills every cell of the region. -/
lemma subpixel_sample_spec {S : ℕ} (fns : cmath)
    {shade_point : ℚ × ℚ → List ℚ → hdr_color × List ℚ}
    (hshade : shade_consumes shade_point) (jitter : Bool)
    {pixel : subpixel_ref} {k : ℕ} (hside : pixel.side = 2 ^ k)
    {st : samp_state} (hg : grid_ok st.ps S)
    (hxb : pixel.offset_x + pixel.side ≤ S)
    (hyb : pixel.offset_y + pixel.side ≤ S)
    (hsparse : sparse st.ps pixel)
    (hprng : prng_ok st.prng)
    (st2 : samp_state)
    (hst2 : st2 = subpixel_sample fns shade_point jitter pixel st) :
    grid_ok st2.ps S ∧
    (∀ a b, a < S → b < S → ¬ in_square pixel a b →
      st2.ps.at_ a b = st.ps.at_ a b) ∧
    pixel.total_weight st2.ps = pixel.side * pixel.side ∧
    ((has_pos st.ps pixel →
        st2.rays + 1 ≤ st.rays + pixel.side * pixel.side) ∧
      st2.rays ≤ st.rays + pixel.side * pixel.side) ∧
    (st.add_ok = true → st2.add_ok = true) ∧
    st2.prng.IsSuffix st.prng ∧
    (pixel.side ≤ 2 →
      ∀ a b, in_square pixel a b → 0 < (st2.ps.at_ a b).weight) := by
  obtain ⟨hsideS, hS, hlen, hW, hH⟩ := hg
  have hgok : grid_ok st.ps S := ⟨hsideS, hS, hlen, hW, hH⟩
  unfold subpixel_sample at hst2
  simp only at hst2
  by_cases h1 : pixel.side = 1
  · -- leaf case
    rw [if_pos h1] at hst2
    have hs1 : 0 < pixel.side := by omega
    have hsingle : ∀ a b, in_square pixel a b →
        a = pixel.offset_x ∧ b = pixel.offset_y := by
      intro a b hab
      rw [in_square] at hab
      omega
    cases hga : pixel.get_any st.ps with
    | none =>
      have hzero := get_any_none.mp hga
      obtain ⟨x, y, col, prng2, hin, heq, hsuf⟩ :=
        sample_one_spec hgok hshade jitter hxb hyb hs1 hprng
          (pixel.side * pixel.side)
      rw [hga, heq] at hst2
      subst hst2
      have hxS := (in_square_lt hxb hyb hin).1
      have hyS := (in_square_lt hxb hyb hin).2
      have hxside : x < st.ps.side := by rw [hsideS]; exact hxS
      have hidx : y * st.ps.side + x < st.ps.samples.length := by
        rw [hlen, hsideS]
        calc y * S + x < y * S + S := by omega
          _ = (y + 1) * S := by ring
          _ ≤ S * S := by
              apply Nat.mul_le_mul_right
              omega
      have hone : one_pos
          (st.ps.set_at x y ⟨col, pixel.side * pixel.side⟩) pixel
          (pixel.side * pixel.side) := by
        refine ⟨x, y, hin, ?_, ?_⟩
        · rw [at_set_self hidx]
        · intro a b hab hne
          obtain ⟨ha, hb⟩ := hsingle a b hab
          obtain ⟨hx4, hy4⟩ := hsingle x y hin
          exact absurd (by rw [ha, hb, hx4, hy4]) hne
      refine ⟨⟨hsideS, hS, by rw [set_at_length]; exact hlen, hW, hH⟩,
        ?_, ?_, ?_, ?_, hsuf, ?_⟩
      · intro a b haS hbS hnot
        apply at_set_ne hxside (by rw [hsideS]; exact haS)
        intro hcontra
        apply hnot
        cases hcontra
        exact hin
      · rw [total_weight_of_one_pos hone]
      · constructor
        · intro hpos
          exfalso
          obtain ⟨a, b, hab, hwpos⟩ := hpos
          rw [hzero a b hab] at hwpos
          omega
        · show st.rays + 1 ≤ st.rays + pixel.side * pixel.side
          rw [h1]
      · intro hok
        simp only [hok, Bool.true_and]
        rw [hzero x y hin]
        simp
      · intro _ a b hab
        obtain ⟨ha, hb⟩ := hsingle a b hab
        obtain ⟨hx4, hy4⟩ := hsingle x y hin
        have hab_eq : (a, b) = (x, y) := by rw [ha, hb, hx4, hy4]
        cases hab_eq
        rw [at_set_self hidx]
        exact Nat.mul_pos hs1 hs1
    | some p =>
      rcases p with ⟨x, y⟩
      obtain ⟨hin, hwpos⟩ := get_any_some hga
      rw [hga] at hst2
      simp only at hst2
      subst hst2
      have hxS := (in_square_lt hxb hyb hin).1
      have hyS := (in_square_lt hxb hyb hin).2
      have hxside : x < st.ps.side := by rw [hsideS]; exact hxS
      have hidx : y * st.ps.side + x < st.ps.samples.length := by
        rw [hlen, hsideS]
        calc y * S + x < y * S + S := by omega
          _ = (y + 1) * S := by ring
          _ ≤ S * S := by
              apply Nat.mul_le_mul_right
              omega
      have hone : one_pos
          (st.ps.set_at x y ⟨(st.ps.at_ x y).value,
            pixel.side * pixel.side⟩) pixel (pixel.side * pixel.side) := by
        refine ⟨x, y, hin, ?_, ?_⟩
        · rw [at_set_self hidx]
        · intro a b hab hne
          obtain ⟨ha, hb⟩ := hsingle a b hab
          obtain ⟨hx4, hy4⟩ := hsingle x y hin
          exact absurd (by rw [ha, hb, hx4, hy4]) hne
      refine ⟨⟨hsideS, hS, by rw [set_at_length]; exact hlen, hW, hH⟩,
        ?_, ?_, ?_, ?_, List.suffix_refl _, ?_⟩
      · intro a b haS hbS hnot
        apply at_set_ne hxside (by rw [hsideS]; exact haS)
        intro hcontra
        apply hnot
        cases hcontra
        exact hin
      · rw [total_weight_of_one_pos hone]
      · constructor
        · intro _
          show st.rays + 1 ≤ st.rays + pixel.side * pixel.side
          rw [h1]
        · show st.rays ≤ st.rays + pixel.side * pixel.side
          omega
      · intro hok
        exact hok
      · intro _ a b hab
        obtain ⟨ha, hb⟩ := hsingle a b hab
        obtain ⟨hx4, hy4⟩ := hsingle x y hin
        have hab_eq : (a, b) = (x, y) := by rw [ha, hb, hx4, hy4]
        cases hab_eq
        rw [at_set_self hidx]
        exact Nat.mul_pos hs1 hs1
  · rw [if_neg h1] at hst2
    by_cases h2 : 1 < pixel.side
    · -- interior case
      rw [dif_pos h2] at hst2
      have hk1 : 1 ≤ k := by
        by_contra hcontra
        have hk0 : k = 0 := by omega
        rw [hk0] at hside
        simp at hside
        exact h1 hside
      have hm : 0 < 2 ^ (k - 1) := by positivity
      have hside2m : pixel.side = 2 * 2 ^ (k - 1) := by
        rw [hside]
        conv_lhs => rw [show k = (k - 1) + 1 by omega]
        rw [pow_succ]
        ring
      have hw4 : pixel.side * pixel.side / 4 =
          2 ^ (k - 1) * 2 ^ (k - 1) := by
        rw [hside2m]
        have h4 : 2 * 2 ^ (k - 1) * (2 * 2 ^ (k - 1)) =
            4 * (2 ^ (k - 1) * 2 ^ (k - 1)) := by ring
        rw [h4]
        exact Nat.mul_div_cancel_left _ (by norm_num)
      have hw4pos : 0 < pixel.side * pixel.side / 4 := by
        rw [hw4]
        positivity
      have hsq4 : pixel.side * pixel.side =
          4 * (2 ^ (k - 1) * 2 ^ (k - 1)) := by
        rw [hside2m]
        ring
      obtain ⟨hgP, hlocP, honeP, hraysP, hokP, hsufP⟩ :=
        corner_pass_spec hgok hshade jitter hside2m hm hxb hyb hsparse
          hprng hw4pos ⟨dbl_max, dbl_max, dbl_max⟩
          ⟨dbl_min, dbl_min, dbl_min⟩
          (List.foldl (corner_step shade_point jitter pixel
            (pixel.side * pixel.side / 4))
            (st, ⟨dbl_max, dbl_max, dbl_max⟩,
              ⟨dbl_min, dbl_min, dbl_min⟩) [0, 1, 2, 3]).1 rfl
      have honePm : ∀ c, c < 4 →
          one_pos (List.foldl (corner_step shade_point jitter pixel
            (pixel.side * pixel.side / 4))
            (st, ⟨dbl_max, dbl_max, dbl_max⟩,
              ⟨dbl_min, dbl_min, dbl_min⟩) [0, 1, 2, 3]).1.ps
            (pixel.corner c) (2 ^ (k - 1) * 2 ^ (k - 1)) := by
        intro c hc
        rw [← hw4]
        exact honeP c hc
      split at hst2
      · -- the region is refined: four recursive calls
        rename_i hdist
        have hsideC : ∀ c : ℕ, (pixel.corner c).side = 2 ^ (k - 1) :=
          fun c => corner_side hside2m c
        have hboundsC : ∀ c : ℕ, c < 4 →
            (pixel.corner c).offset_x + (pixel.corner c).side ≤ S ∧
            (pixel.corner c).offset_y + (pixel.corner c).side ≤ S :=
          fun c hc => corner_bounds hside2m hxb hyb hc
        have hcinS : ∀ c : ℕ, c < 4 →
            ∀ x y, in_square (pixel.corner c) x y → x < S ∧ y < S := by
          intro c hc x y h
          exact in_square_lt hxb hyb (corner_in_square hside2m hc h)
        set stP := (List.foldl (corner_step shade_point jitter pixel
          (pixel.side * pixel.side / 4))
          (st, ⟨dbl_max, dbl_max, dbl_max⟩,
            ⟨dbl_min, dbl_min, dbl_min⟩) [0, 1, 2, 3]).1 with hstP
        -- recursive call on corner 0
        obtain ⟨hg0, hloc0, htot0, hrays0, hok0, hsuf0, hfill0⟩ :=
          subpixel_sample_spec fns hshade jitter (hsideC 0) hgP
            (hboundsC 0 (by norm_num)).1 (hboundsC 0 (by norm_num)).2
            (one_pos_sparse (honePm 0 (by norm_num)))
            (prng_ok_suffix hsufP hprng)
            (subpixel_sample fns shade_point jitter (pixel.corner 0) stP)
            rfl
        have keep0 : ∀ c : ℕ, c < 4 → c ≠ 0 → ∀ x y,
            in_square (pixel.corner c) x y →
            (subpixel_sample fns shade_point jitter (pixel.corner 0)
              stP).ps.at_ x y = stP.ps.at_ x y := by
          intro c hc hne x y h
          exact hloc0 x y (hcinS c hc x y h).1 (hcinS c hc x y h).2
            (fun h0 => corners_disjoint hside2m hc (by norm_num) hne h h0)
        set stA := subpixel_sample fns shade_point jitter (pixel.corner 0)
          stP with hstA
        -- recursive call on corner 1
        obtain ⟨hg1, hloc1, htot1, hrays1, hok1, hsuf1, hfill1⟩ :=
          subpixel_sample_spec fns hshade jitter (hsideC 1) hg0
            (hboundsC 1 (by norm_num)).1 (hboundsC 1 (by norm_num)).2
            (one_pos_sparse (one_pos_congr
              (keep0 1 (by norm_num) (by norm_num))
              (honePm 1 (by norm_num))))
            (prng_ok_suffix (hsuf0.trans hsufP) hprng)
            (subpixel_sample fns shade_point jitter (pixel.corner 1) stA)
            rfl
        have keep1 : ∀ c : ℕ, c < 4 → c ≠ 1 → ∀ x y,
            in_square (pixel.corner c) x y →
            (subpixel_sample fns shade_point jitter (pixel.corner 1)
              stA).ps.at_ x y = stA.ps.at_ x y := by
          intro c hc hne x y h
          exact hloc1 x y (hcinS c hc x y h).1 (hcinS c hc x y h).2
            (fun h0 => corners_disjoint hside2m hc (by norm_num) hne h h0)
        set stB := subpixel_sample fns shade_point jitter (pixel.corner 1)
          stA with hstB
        -- recursive call on corner 2
        obtain ⟨hg2, hloc2, htot2, hrays2, hok2, hsuf2, hfill2⟩ :=
          subpixel_sample_spec fns hshade jitter (hsideC 2) hg1
            (hboundsC 2 (by norm_num)).1 (hboundsC 2 (by norm_num)).2
            (one_pos_sparse (one_pos_congr (fun x y h =>
              (keep1 2 (by norm_num) (by norm_num) x y h).trans
                (keep0 2 (by norm_num) (by norm_num) x y h))
              (honePm 2 (by norm_num))))
            (prng_ok_suffix ((hsuf1.trans hsuf0).trans hsufP) hprng)
            (subpixel_sample fns shade_point jitter (pixel.corner 2) stB)
            rfl
        have keep2 : ∀ c : ℕ, c < 4 → c ≠ 2 → ∀ x y,
            in_square (pixel.corner c) x y →
            (subpixel_sample fns shade_point jitter (pixel.corner 2)
              stB).ps.at_ x y = stB.ps.at_ x y := by
          intro c hc hne x y h
          exact hloc2 x y (hcinS c hc x y h).1 (hcinS c hc x y h).2
            (fun h0 => corners_disjoint hside2m hc (by norm_num) hne h h0)
        set stC := subpixel_sample fns shade_point jitter (pixel.corner 2)
          stB with hstC
        -- recursive call on corner 3
        obtain ⟨hg3, hloc3, htot3, hrays3, hok3, hsuf3, hfill3⟩ :=
          subpixel_sample_spec fns hshade jitter (hsideC 3) hg2
            (hboundsC 3 (by norm_num)).1 (hboundsC 3 (by norm_num)).2
            (one_pos_sparse (one_pos_congr (fun x y h =>
              ((keep2 3 (by norm_num) (by norm_num) x y h).trans
                (keep1 3 (by norm_num) (by norm_num) x y h)).trans
                (keep0 3 (by norm_num) (by norm_num) x y h))
              (honePm 3 (by norm_num))))
            (prng_ok_suffix (((hsuf2.trans hsuf1).trans hsuf0).trans hsufP)
              hprng)
            (subpixel_sample fns shade_point jitter (pixel.corner 3) stC)
            rfl
        have keep3 : ∀ c : ℕ, c < 4 → c ≠ 3 → ∀ x y,
            in_square (pixel.corner c) x y →
            (subpixel_sample fns shade_point jitter (pixel.corner 3)
              stC).ps.at_ x y = stC.ps.at_ x y := by
          intro c hc hne x y h
          exact hloc3 x y (hcinS c hc x y h).1 (hcinS c hc x y h).2
            (fun h0 => corners_disjoint hside2m hc (by norm_num) hne h h0)
        subst hst2
        set stD := subpixel_sample fns shade_point jitter (pixel.corner 3)
          stC with hstD
        -- the final cell values of each corner
        have hatA : ∀ x y, in_square (pixel.corner 0) x y →
            stD.ps.at_ x y = stA.ps.at_ x y := by
          intro x y h
          rw [keep3 0 (by norm_num) (by norm_num) x y h,
            keep2 0 (by norm_num) (by norm_num) x y h,
            keep1 0 (by norm_num) (by norm_num) x y h]
        have hatB : ∀ x y, in_square (pixel.corner 1) x y →
            stD.ps.at_ x y = stB.ps.at_ x y := by
          intro x y h
          rw [keep3 1 (by norm_num) (by norm_num) x y h,
            keep2 1 (by norm_num) (by norm_num) x y h]
        have hatC : ∀ x y, in_square (pixel.corner 2) x y →
            stD.ps.at_ x y = stC.ps.at_ x y := by
          intro x y h
          rw [keep3 2 (by norm_num) (by norm_num) x y h]
        refine ⟨hg3, ?_, ?_, ?_, ?_, ?_, ?_⟩
        · -- locality outside the big square
          intro a b haS hbS hnot
          rw [hloc3 a b haS hbS (not_in_corner hside2m (by norm_num) hnot),
            hloc2 a b haS hbS (not_in_corner hside2m (by norm_num) hnot),
            hloc1 a b haS hbS (not_in_corner hside2m (by norm_num) hnot),
            hloc0 a b haS hbS (not_in_corner hside2m (by norm_num) hnot),
            hlocP a b haS hbS hnot]
        · -- total weight of the big square
          rw [total_weight_corners hside2m]
          rw [total_weight_congr hatA, total_weight_congr hatB,
            total_weight_congr hatC]
          rw [htot0, htot1, htot2, htot3]
          rw [hsideC 0, hsideC 1, hsideC 2, hsideC 3, hsq4]
          ring
        · -- ray-count bookkeeping
          have hhp0 : has_pos stP.ps (pixel.corner 0) :=
            one_pos_has_pos (by positivity) (honePm 0 (by norm_num))
          have hhp1 : has_pos stA.ps (pixel.corner 1) :=
            has_pos_congr (keep0 1 (by norm_num) (by norm_num))
              (one_pos_has_pos (by positivity) (honePm 1 (by norm_num)))
          have hhp2 : has_pos stB.ps (pixel.corner 2) :=
            has_pos_congr (fun x y h =>
              (keep1 2 (by norm_num) (by norm_num) x y h).trans
                (keep0 2 (by norm_num) (by norm_num) x y h))
              (one_pos_has_pos (by positivity) (honePm 2 (by norm_num)))
          have hhp3 : has_pos stC.ps (pixel.corner 3) :=
            has_pos_congr (fun x y h =>
              ((keep2 3 (by norm_num) (by norm_num) x y h).trans
                (keep1 3 (by norm_num) (by norm_num) x y h)).trans
                (keep0 3 (by norm_num) (by norm_num) x y h))
              (one_pos_has_pos (by positivity) (honePm 3 (by norm_num)))
          have hr0 := (hrays0.1 hhp0)
          have hr1 := (hrays1.1 hhp1)
          have hr2 := (hrays2.1 hhp2)
          have hr3 := (hrays3.1 hhp3)
          rw [hsideC 0] at hr0
          rw [hsideC 1] at hr1
          rw [hsideC 2] at hr2
          rw [hsideC 3] at hr3
          have hrP2 := hraysP.2
          constructor
          · intro hpos
            have hrP1 := hraysP.1 hpos
            rw [hsq4]
            omega
          · rw [hsq4]
            omega
        · exact fun h => hok3 (hok2 (hok1 (hok0 (hokP h))))
        · exact (((hsuf3.trans hsuf2).trans hsuf1).trans hsuf0).trans hsufP
        · -- side ≤ 2: every cell of the region is filled
          intro hle a b hab
          have hm1 : k - 1 = 0 := by
            by_contra hcontra
            have : 2 ≤ k - 1 + 1 := by omega
            have h4le : (4 : ℕ) ≤ pixel.side := by
              rw [hside2m]
              calc (4 : ℕ) = 2 * 2 ^ 1 := by norm_num
                _ ≤ 2 * 2 ^ (k - 1) := by
                    apply Nat.mul_le_mul_left
                    apply Nat.pow_le_pow_right (by norm_num)
                    omega
            omega
          have hmle : (pixel.corner 0).side ≤ 2 := by
            rw [hsideC 0, hm1]
            norm_num
          rcases square_cover hside2m hab with h0 | h1c | h2c | h3c
          · have := hfill0 (by rw [hsideC 0, hm1]; norm_num) a b h0
            rw [hatA a b h0]
            exact this
          · have := hfill1 (by rw [hsideC 1, hm1]; norm_num) a b h1c
            rw [hatB a b h1c]
            exact this
          · have := hfill2 (by rw [hsideC 2, hm1]; norm_num) a b h2c
            rw [hatC a b h2c]
            exact this
          · exact hfill3 (by rw [hsideC 3, hm1]; norm_num) a b h3c
      · -- the four corner samples are accepted as-is
        rename_i hdist
        subst hst2
        refine ⟨hgP, hlocP, ?_, ?_, hokP, hsufP, ?_⟩
        · rw [total_weight_corners hside2m]
          rw [total_weight_of_one_pos (honePm 0 (by norm_num)),
            total_weight_of_one_pos (honePm 1 (by norm_num)),
            total_weight_of_one_pos (honePm 2 (by norm_num)),
            total_weight_of_one_pos (honePm 3 (by norm_num))]
          rw [hsq4]
          ring
        · have h4le : 4 ≤ pixel.side * pixel.side := by
            nlinarith
          constructor
          · intro hpos
            have := hraysP.1 hpos
            omega
          · have := hraysP.2
            omega
        · intro hle a b hab
          have hm1 : 2 ^ (k - 1) = 1 := by
            by_contra hcontra
            have h2le : 2 ≤ 2 ^ (k - 1) := by
              have := Nat.one_le_two_pow (n := k - 1)
              omega
            have : 4 ≤ pixel.side := by
              rw [hside2m]
              omega
            omega
          rcases square_cover hside2m hab with h0 | h1c | h2c | h3c
          · obtain ⟨x, y, hin, hweq, hrest⟩ := honePm 0 (by norm_num)
            have hab_eq : (a, b) = (x, y) := by
              rw [in_square, subpixel_ref.corner] at h0 hin
              simp only [hside2m, hm1] at h0 hin
              simp only [Prod.mk.injEq]
              omega
            cases hab_eq
            rw [hweq, hm1]
            omega
          · obtain ⟨x, y, hin, hweq, hrest⟩ := honePm 1 (by norm_num)
            have hab_eq : (a, b) = (x, y) := by
              rw [in_square, subpixel_ref.corner] at h1c hin
              simp only [hside2m, hm1] at h1c hin
              simp only [Prod.mk.injEq]
              omega
            cases hab_eq
            rw [hweq, hm1]
            omega
          · obtain ⟨x, y, hin, hweq, hrest⟩ := honePm 2 (by norm_num)
            have hab_eq : (a, b) = (x, y) := by
              rw [in_square, subpixel_ref.corner] at h2c hin
              simp only [hside2m, hm1] at h2c hin
              simp only [Prod.mk.injEq]
              omega
            cases hab_eq
            rw [hweq, hm1]
            omega
          · obtain ⟨x, y, hin, hweq, hrest⟩ := honePm 3 (by norm_num)
            have hab_eq : (a, b) = (x, y) := by
              rw [in_square, subpixel_ref.corner] at h3c hin
              simp only [hside2m, hm1] at h3c hin
              simp only [Prod.mk.injEq]
              omega
            cases hab_eq
            rw [hweq, hm1]
            omega
    · -- side = 0: impossible for a power of two
      exfalso
      have := Nat.one_le_two_pow (n := k)
      omega
termination_by pixel.side
decreasing_by
  all_goals
    simp only [subpixel_ref.corner]
    omega

lemma map_sum_eq_range_getD {α : Type} (l : List α) (f : α → ℕ) (d : α) :
    (l.map f).sum =
      ((List.range l.length).map (fun i => f (l.getD i d))).sum := by
  induction l with
  | nil => simp
  | cons a t ih =>
    rw [List.map_cons, List.sum_cons, List.length_cons,
      List.range_succ_eq_map, List.map_cons, List.sum_cons, List.map_map]
    simp only [Function.comp, List.getD_cons_succ, List.getD_cons_zero]
    rw [ih]
    have hfs : ((fun i => f ((a :: t).getD i d)) ∘ Nat.succ) = (fun i => f (t.getD i d)) := rfl
    rw [hfs]

lemma reset_at (pixel : rectangle) (side x y : ℕ) :
    (pixel_samples.reset pixel side).at_ x y = ⟨⟨0, 0, 0⟩, 0⟩ := by
  rw [pixel_samples.at_, pixel_samples.reset]
  simp only [List.getD_eq_getElem?_getD, List.getElem?_replicate]
  split <;> rfl

/-- The sum over the whole sample vector equals the `total_weight` of the
full grid square. -/
lemma grid_sum_eq_total {ps : pixel_samples} {S : ℕ} (hside : ps.side = S)
    (hlen : ps.samples.length = S * S) :
    grid_weight_sum ps = subpixel_ref.total_weight ⟨0, 0, S⟩ ps := by
  rw [grid_weight_sum, subpixel_ref.total_weight]
  rw [map_sum_eq_range_getD ps.samples _ ⟨⟨0, 0, 0⟩, 0⟩]
  have hmap : (square_pairs ⟨0, 0, S⟩).map
      (fun p => (ps.at_ p.1 p.2).weight) =
      ((square_pairs ⟨0, 0, S⟩).map (fun p => p.2 * S + p.1)).map
        (fun i => (ps.samples.getD i ⟨⟨0, 0, 0⟩, 0⟩).weight) := by
    rw [List.map_map]
    apply List.map_congr_left
    rintro ⟨a, b⟩ hab
    simp only [Function.comp]
    rw [pixel_samples.at_, hside]
  rw [hmap]
  rcases Nat.eq_zero_or_pos S with hS0 | hSpos
  · subst hS0
    rw [hlen]
    simp [square_pairs]
  have hperm : List.Perm
      ((square_pairs ⟨0, 0, S⟩).map (fun p => p.2 * S + p.1))
      (List.range (S * S)) := by
    apply List.perm_of_nodup_nodup_toFinset_eq
    · apply List.Nodup.map_on _ (square_pairs_nodup _)
      rintro ⟨a, b⟩ hab ⟨c, d⟩ hcd heq
      have h1 := mem_square_pairs.mp hab
      have h2 := mem_square_pairs.mp hcd
      rw [in_square] at h1 h2
      simp only at h1 h2 heq ⊢
      have ha : a < S := by omega
      have hc : c < S := by omega
      have hmod : (b * S + a) % S = (d * S + c) % S := by rw [heq]
      rw [Nat.mul_comm b S, Nat.mul_comm d S] at hmod heq
      rw [Nat.mul_add_mod, Nat.mul_add_mod, Nat.mod_eq_of_lt ha,
        Nat.mod_eq_of_lt hc] at hmod
      subst hmod
      have hbd : b = d := by
        have h3 := Nat.add_right_cancel heq
        exact Nat.eq_of_mul_eq_mul_left hSpos h3
      simp [hbd]
    · exact List.nodup_range _
    · ext i
      simp only [List.mem_toFinset, List.mem_map, List.mem_range]
      constructor
      · rintro ⟨⟨a, b⟩, hab, rfl⟩
        have h1 := mem_square_pairs.mp hab
        rw [in_square] at h1
        simp only at h1 ⊢
        calc b * S + a < b * S + S := by omega
          _ = (b + 1) * S := by ring
          _ ≤ S * S := Nat.mul_le_mul_right _ (by omega)
      · intro hi
        refine ⟨(i % S, i / S), mem_square_pairs.mpr ?_, ?_⟩
        · rw [in_square]
          simp only
          have hmod := Nat.mod_lt i hSpos
          refine ⟨Nat.zero_le _, by omega, Nat.zero_le _, ?_⟩
          simp only [Nat.zero_add]
          rw [Nat.div_lt_iff_lt_mul hSpos]
          omega
        · simp only
          rw [Nat.add_comm, Nat.mul_comm]
          exact (Nat.mod_add_div i S)
  rw [hlen, (hperm.map _).sum_eq]

/-- The constant-black shading oracle used for the concrete `S = 4`
sampler run: every shaded point is `(0, 0, 0)` and the PRNG stream is
untouched — a perfectly uniform region. -/
def shade_black : ℚ × ℚ → List ℚ → hdr_color × List ℚ :=
  fun _ pr => (⟨0, 0, 0⟩, pr)

/-- A math oracle whose `sqrt` is identically `0`: under it the corner
min/max colour distance of a uniform region evaluates to `0` (consistent
with `sqrt 0 = 0`), so the adaptive test `dist > 0.2` never fires. -/
def fns_zero : cmath := ⟨fun _ => 0, fun _ _ => 0, fun _ => 0, fun _ => 0⟩

/-- The freshly reset `4×4` grid of the concrete run over the pixel
rectangle `[0,4] × [0,4]`. -/
def ps_c5_0 : pixel_samples := pixel_samples.reset ⟨0, 0, 4, 4⟩ 4

/-- The grid after the first corner sample (bucketed into cell `(1,1)`). -/
def ps_c5_1 : pixel_samples := ps_c5_0.set_at 1 1 ⟨⟨0, 0, 0⟩, 4⟩

/-- The grid after the second corner sample (cell `(3,1)`). -/
def ps_c5_2 : pixel_samples := ps_c5_1.set_at 3 1 ⟨⟨0, 0, 0⟩, 4⟩

/-- The grid after the third corner sample (cell `(1,3)`). -/
def ps_c5_3 : pixel_samples := ps_c5_2.set_at 1 3 ⟨⟨0, 0, 0⟩, 4⟩

/-- The grid after the fourth corner sample (cell `(3,3)`). -/
def ps_c5_4 : pixel_samples := ps_c5_3.set_at 3 3 ⟨⟨0, 0, 0⟩, 4⟩

lemma ps_c5_1_at (a b : ℕ) (ha : a < 4) (hne1 : (a, b) ≠ (1, 1)) :
    ps_c5_1.at_ a b = ⟨⟨0, 0, 0⟩, 0⟩ := by
  unfold ps_c5_1 ps_c5_0
  rw [at_set_ne (by decide) ha hne1, reset_at]

lemma ps_c5_2_at (a b : ℕ) (ha : a < 4) (hne1 : (a, b) ≠ (1, 1))
    (hne2 : (a, b) ≠ (3, 1)) : ps_c5_2.at_ a b = ⟨⟨0, 0, 0⟩, 0⟩ := by
  unfold ps_c5_2
  rw [at_set_ne (by decide) ha hne2, ps_c5_1_at a b ha hne1]

lemma ps_c5_3_at (a b : ℕ) (ha : a < 4) (hne1 : (a, b) ≠ (1, 1))
    (hne2 : (a, b) ≠ (3, 1)) (hne3 : (a, b) ≠ (1, 3)) :
    ps_c5_3.at_ a b = ⟨⟨0, 0, 0⟩, 0⟩ := by
  unfold ps_c5_3
  rw [at_set_ne (by decide) ha hne3, ps_c5_2_at a b ha hne1 hne2]

lemma ps_c5_4_at (a b : ℕ) (ha : a < 4) (hne1 : (a, b) ≠ (1, 1))
    (hne2 : (a, b) ≠ (3, 1)) (hne3 : (a, b) ≠ (1, 3))
    (hne4 : (a, b) ≠ (3, 3)) : ps_c5_4.at_ a b = ⟨⟨0, 0, 0⟩, 0⟩ := by
  unfold ps_c5_4
  rw [at_set_ne (by decide) ha hne4, ps_c5_3_at a b ha hne1 hne2 hne3]

/-- Concrete evaluation of `sample_one` over a `2×2` corner region of the
`4×4` grid on the `[0,4]²` pixel with jitter off: the centre of the region
`[ox, ox+2] × [oy, oy+2]` is `(ox+1, oy+1)`, which `pixel_samples::add`
buckets into cell `(ox+1, oy+1)` (each grid cell has extent `1×1`). -/
lemma sample_one_corner4 (ps : pixel_samples) (prng : List ℚ) (r : ℕ)
    (b : Bool) (ox oy : ℕ) (hox : ox = 0 ∨ ox = 2) (hoy : oy = 0 ∨ oy = 2)
    (hside : ps.side = 4) (hregion : ps.region = ⟨0, 0, 4, 4⟩) :
    sample_one shade_black false (subpixel_ref.region ⟨ox, oy, 2⟩ ps) 4
      ⟨ps, prng, r, b⟩ =
      (⟨ps.set_at (ox + 1) (oy + 1) ⟨⟨0, 0, 0⟩, 4⟩, prng, r + 1,
        b && decide ((ps.at_ (ox + 1) (oy + 1)).weight = 0)⟩,
        ((ox + 1 : ℕ), (oy + 1 : ℕ)),
        (⟨⟨0, 0, 0⟩, 4⟩ : pixel_samples.sample)) := by
  rcases hox with rfl | rfl <;> rcases hoy with rfl | rfl <;>
  · unfold sample_one subpixel_ref.region pixel_samples.add shade_black
    simp only [hside, hregion]
    norm_num [show Int.toNat 3 = 3 from rfl]

/-- Concrete evaluation of one corner-loop step of `subpixel_sample` at
side `4` when the corner's quadrant holds no sample yet: `get_any` finds
nothing, so one ray is cast through the quadrant centre and stored at cell
`(ox+1, oy+1)` with weight `4`. -/
lemma corner_step_black (ps : pixel_samples) (prng : List ℚ) (r : ℕ)
    (mn mx : hdr_color) (c ox oy : ℕ)
    (hc : subpixel_ref.corner ⟨0, 0, 4⟩ c = ⟨ox, oy, 2⟩)
    (hox : ox = 0 ∨ ox = 2) (hoy : oy = 0 ∨ oy = 2)
    (hside : ps.side = 4) (hregion : ps.region = ⟨0, 0, 4, 4⟩)
    (hempty : ∀ x y, in_square ⟨ox, oy, 2⟩ x y → (ps.at_ x y).weight = 0) :
    corner_step shade_black false ⟨0, 0, 4⟩ 4 (⟨ps, prng, r, true⟩, mn, mx) c
      = (⟨ps.set_at (ox + 1) (oy + 1) ⟨⟨0, 0, 0⟩, 4⟩, prng, r + 1, true⟩,
        chan_min mn ⟨0, 0, 0⟩, chan_max mx ⟨0, 0, 0⟩) := by
  have hga : subpixel_ref.get_any ⟨ox, oy, 2⟩ ps = none :=
    get_any_none.mpr hempty
  have hz : (ps.at_ (ox + 1) (oy + 1)).weight = 0 := by
    apply hempty
    simp only [in_square]
    omega
  have hs1 := sample_one_corner4 ps prng r true ox oy hox hoy hside hregion
  rw [corner_step]
  simp only [hc, hga, hs1, hz]
  norm_num

/-- **C2** *Weight conservation* (renderer.cpp lines 349–424).  For every
pixel rectangle (positive extents, as the `rectangle` constructor asserts),
every power-of-two supersampling level, every shading and sqrt oracle,
every jitter setting and every well-formed PRNG stream, the weights of the
`S×S` sample grid sum to exactly `S²` after the top-level `sample` call —
the property the source asserts at renderer.cpp lines 414–417. -/
theorem C2_weight_conservation (fns : cmath)
    (shade_point : ℚ × ℚ → List ℚ → hdr_color × List ℚ)
    (policy : shading_policy) (pixel : rectangle) (prng : List ℚ) (k : ℕ)
    (hS : policy.supersampling = 2 ^ k)
    (hw : 0 < pixel.width) (hh : 0 < pixel.height)
    (hprng : prng_ok prng) (hshade : shade_consumes shade_point) :
    grid_weight_sum (sample fns shade_point policy pixel prng).2.ps =
      policy.supersampling * policy.supersampling := by
  have hSpos : 0 < policy.supersampling := by
    rw [hS]
    positivity
  have hg : grid_ok (pixel_samples.reset pixel policy.supersampling)
      policy.supersampling :=
    ⟨rfl, hSpos, by simp [pixel_samples.reset], hw, hh⟩
  have hsp : sparse (pixel_samples.reset pixel policy.supersampling)
      ⟨0, 0, policy.supersampling⟩ := by
    intro a b x y h1 h2 h3 h4
    rw [reset_at] at h3
    simp at h3
  obtain ⟨hg2, hloc2, htot2, hrays2, hok2, hsuf2, hfill2⟩ :=
    subpixel_sample_spec fns hshade policy.jitter hS
      hg (by simp [pixel_samples.reset]) (by simp [pixel_samples.reset])
      hsp hprng
      (subpixel_sample fns shade_point policy.jitter
        ⟨0, 0, (pixel_samples.reset pixel policy.supersampling).side⟩
        ⟨pixel_samples.reset pixel policy.supersampling, prng, 0, true⟩)
      rfl
  rw [sample]
  simp only
  rw [grid_sum_eq_total hg2.1 hg2.2.2.1]
  exact htot2

/-- Witness for C2 at `S = 2` over the unit pixel with a constant shading
oracle. -/
theorem C2_weight_conservation_witness :
    grid_weight_sum (sample
      ⟨fun _ => 0, fun _ _ => 0, fun _ => 0, fun _ => 0⟩
      (fun _ pr => (⟨0, 0, 0⟩, pr))
      ⟨⟨0, 0, 0⟩, 0, 0, false, 2⟩ ⟨0, 0, 1, 1⟩ []).2.ps = 2 * 2 :=
  C2_weight_conservation _ _ _ _ _ 1 rfl (by norm_num) (by norm_num)
    (by intro u hu; cases hu) (fun pt pr => List.suffix_refl pr)

/-- **C9** *Sample reuse correctness* (renderer.cpp lines 234–250, 270–279,
349–405).  Within one top-level `sample` call, `pixel_samples::add` is
never invoked for a cell whose weight is already nonzero — the
`assert(samples_[...].weight == 0)` never fires (the `add_ok`
instrumentation stays `true`, because `subpixel_sample` only casts a new
ray when `get_any` finds no existing sample in the region) — and at most
`S²` camera rays are cast for one pixel (the `rays` instrumentation counts
the `sample_one` calls). -/
theorem C9_sample_reuse (fns : cmath)
    (shade_point : ℚ × ℚ → List ℚ → hdr_color × List ℚ)
    (policy : shading_policy) (pixel : rectangle) (prng : List ℚ) (k : ℕ)
    (hS : policy.supersampling = 2 ^ k)
    (hw : 0 < pixel.width) (hh : 0 < pixel.height)
    (hprng : prng_ok prng) (hshade : shade_consumes shade_point) :
    (sample fns shade_point policy pixel prng).2.add_ok = true ∧
    (sample fns shade_point policy pixel prng).2.rays ≤
      policy.supersampling * policy.supersampling := by
  have hSpos : 0 < policy.supersampling := by
    rw [hS]
    positivity
  have hg : grid_ok (pixel_samples.reset pixel policy.supersampling)
      policy.supersampling :=
    ⟨rfl, hSpos, by simp [pixel_samples.reset], hw, hh⟩
  have hsp : sparse (pixel_samples.reset pixel policy.supersampling)
      ⟨0, 0, policy.supersampling⟩ := by
    intro a b x y h1 h2 h3 h4
    rw [reset_at] at h3
    simp at h3
  obtain ⟨hg2, hloc2, htot2, hrays2, hok2, hsuf2, hfill2⟩ :=
    subpixel_sample_spec fns hshade policy.jitter hS
      hg (by simp [pixel_samples.reset]) (by simp [pixel_samples.reset])
      hsp hprng
      (subpixel_sample fns shade_point policy.jitter
        ⟨0, 0, (pixel_samples.reset pixel policy.supersampling).side⟩
        ⟨pixel_samples.reset pixel policy.supersampling, prng, 0, true⟩)
      rfl
  rw [sample]
  simp only
  refine ⟨hok2 rfl, ?_⟩
  have := hrays2.2
  simpa using this

/-- Witness for C9 at `S = 4` with jitter enabled and a two-draw stream. -/
theorem C9_sample_reuse_witness :
    (sample ⟨fun _ => 0, fun _ _ => 0, fun _ => 0, fun _ => 0⟩
      (fun _ pr => (⟨0, 0, 0⟩, pr))
      ⟨⟨0, 0, 0⟩, 0, 0, true, 4⟩ ⟨0, 0, 1, 1⟩ [1 / 2, 1 / 4]).2.add_ok =
      true ∧
    (sample ⟨fun _ => 0, fun _ _ => 0, fun _ => 0, fun _ => 0⟩
      (fun _ pr => (⟨0, 0, 0⟩, pr))
      ⟨⟨0, 0, 0⟩, 0, 0, true, 4⟩ ⟨0, 0, 1, 1⟩ [1 / 2, 1 / 4]).2.rays ≤
      4 * 4 :=
  C9_sample_reuse _ _ _ _ _ 2 rfl (by norm_num) (by norm_num)
    (by
      intro u hu
      fin_cases hu <;> norm_num)
    (fun pt pr => List.suffix_refl pr)

/-- **C5** (amended) (renderer.cpp lines 349–424).  For supersampling
levels `S ≤ 2` every one of the `S×S` grid cells has weight `> 0` after
the top-level `sample` call.  For `S ≥ 4` this fails — see the
counterexample, where a low-variance region leaves cell `(0,0)` with
weight `0` — so only the weight *sum* `S²` is guaranteed in general
(see C2). -/
theorem C5_all_cells_filled (fns : cmath)
    (shade_point : ℚ × ℚ → List ℚ → hdr_color × List ℚ)
    (policy : shading_policy) (pixel : rectangle) (prng : List ℚ) (k : ℕ)
    (hS : policy.supersampling = 2 ^ k)
    (hle : policy.supersampling ≤ 2)
    (hw : 0 < pixel.width) (hh : 0 < pixel.height)
    (hprng : prng_ok prng) (hshade : shade_consumes shade_point) :
    ∀ x y, x < policy.supersampling → y < policy.supersampling →
      0 < ((sample fns shade_point policy pixel prng).2.ps.at_ x y).weight
      := by
  have hSpos : 0 < policy.supersampling := by
    rw [hS]
    positivity
  have hg : grid_ok (pixel_samples.reset pixel policy.supersampling)
      policy.supersampling :=
    ⟨rfl, hSpos, by simp [pixel_samples.reset], hw, hh⟩
  have hsp : sparse (pixel_samples.reset pixel policy.supersampling)
      ⟨0, 0, policy.supersampling⟩ := by
    intro a b x y h1 h2 h3 h4
    rw [reset_at] at h3
    simp at h3
  obtain ⟨hg2, hloc2, htot2, hrays2, hok2, hsuf2, hfill2⟩ :=
    subpixel_sample_spec fns hshade policy.jitter hS
      hg (by simp [pixel_samples.reset]) (by simp [pixel_samples.reset])
      hsp hprng
      (subpixel_sample fns shade_point policy.jitter
        ⟨0, 0, (pixel_samples.reset pixel policy.supersampling).side⟩
        ⟨pixel_samples.reset pixel policy.supersampling, prng, 0, true⟩)
      rfl
  intro x y hx hy
  rw [sample]
  simp only
  exact hfill2 hle x y (by
    rw [in_square]
    exact ⟨Nat.zero_le _, by simpa using hx, Nat.zero_le _,
      by simpa using hy⟩)

/-- Witness for C5 (amended) at `S = 2`: cell `(1, 0)` is filled. -/
theorem C5_all_cells_filled_witness :
    0 < ((sample ⟨fun _ => 0, fun _ _ => 0, fun _ => 0, fun _ => 0⟩
      (fun _ pr => (⟨0, 0, 0⟩, pr))
      ⟨⟨0, 0, 0⟩, 0, 0, false, 2⟩ ⟨0, 0, 1, 1⟩ []).2.ps.at_ 1 0).weight :=
  C5_all_cells_filled _ _ _ _ _ 1 rfl (by norm_num) (by norm_num)
    (by norm_num) (by intro u hu; cases hu)
    (fun pt pr => List.suffix_refl pr) 1 0 (by norm_num) (by norm_num)

/-- Counterexample to C5 as stated: at supersampling level `S = 4` over a
perfectly uniform region (the shading oracle returns black everywhere, so
the corner min/max colour distance is `0 ≤ 0.2` and `subpixel_sample`
stops after its corner pass), cell `(0, 0)` of the `4×4` grid still has
weight `0` after the top-level `sample` call: the four corner samples land
in cells `(1,1)`, `(3,1)`, `(1,3)` and `(3,3)` only, so the claim's
"each of the S×S cells holds a sample with a positive weight" fails. -/
theorem C5_all_cells_filled_cex :
    ((sample fns_zero shade_black ⟨⟨0, 0, 0⟩, 0, 0, false, 4⟩ ⟨0, 0, 4, 4⟩
      []).2.ps.at_ 0 0).weight = 0 := by
  have hempty0 : ∀ x y, in_square ⟨0, 0, 2⟩ x y →
      (ps_c5_0.at_ x y).weight = 0 := by
    intro x y _
    unfold ps_c5_0
    rw [reset_at]
  have hempty1 : ∀ x y, in_square ⟨2, 0, 2⟩ x y →
      (ps_c5_1.at_ x y).weight = 0 := by
    intro x y hin
    simp only [in_square] at hin
    rw [ps_c5_1_at x y (by omega)
      (by intro h; rw [Prod.mk.injEq] at h; omega)]
  have hempty2 : ∀ x y, in_square ⟨0, 2, 2⟩ x y →
      (ps_c5_2.at_ x y).weight = 0 := by
    intro x y hin
    simp only [in_square] at hin
    rw [ps_c5_2_at x y (by omega)
      (by intro h; rw [Prod.mk.injEq] at h; omega)
      (by intro h; rw [Prod.mk.injEq] at h; omega)]
  have hempty3 : ∀ x y, in_square ⟨2, 2, 2⟩ x y →
      (ps_c5_3.at_ x y).weight = 0 := by
    intro x y hin
    simp only [in_square] at hin
    rw [ps_c5_3_at x y (by omega)
      (by intro h; rw [Prod.mk.injEq] at h; omega)
      (by intro h; rw [Prod.mk.injEq] at h; omega)
      (by intro h; rw [Prod.mk.injEq] at h; omega)]
  have hstep0 := fun (prng : List ℚ) (r : ℕ) (mn mx : hdr_color) =>
    corner_step_black ps_c5_0 prng r mn mx 0 0 0 rfl (Or.inl rfl)
      (Or.inl rfl) rfl rfl hempty0
  have hstep1 := fun (prng : List ℚ) (r : ℕ) (mn mx : hdr_color) =>
    corner_step_black ps_c5_1 prng r mn mx 1 2 0 rfl (Or.inr rfl)
      (Or.inl rfl) rfl rfl hempty1
  have hstep2 := fun (prng : List ℚ) (r : ℕ) (mn mx : hdr_color) =>
    corner_step_black ps_c5_2 prng r mn mx 2 0 2 rfl (Or.inl rfl)
      (Or.inr rfl) rfl rfl hempty2
  have hstep3 := fun (prng : List ℚ) (r : ℕ) (mn mx : hdr_color) =>
    corner_step_black ps_c5_3 prng r mn mx 3 2 2 rfl (Or.inr rfl)
      (Or.inr rfl) rfl rfl hempty3
  have hpass :
      List.foldl (corner_step shade_black false ⟨0, 0, 4⟩ 4)
        ((⟨ps_c5_0, [], 0, true⟩ : samp_state),
          (⟨dbl_max, dbl_max, dbl_max⟩ : hdr_color),
          (⟨dbl_min, dbl_min, dbl_min⟩ : hdr_color)) [0, 1, 2, 3] =
        (⟨ps_c5_4, [], 4, true⟩,
          chan_min (chan_min (chan_min (chan_min
            ⟨dbl_max, dbl_max, dbl_max⟩ ⟨0, 0, 0⟩) ⟨0, 0, 0⟩) ⟨0, 0, 0⟩)
            ⟨0, 0, 0⟩,
          chan_max (chan_max (chan_max (chan_max
            ⟨dbl_min, dbl_min, dbl_min⟩ ⟨0, 0, 0⟩) ⟨0, 0, 0⟩) ⟨0, 0, 0⟩)
            ⟨0, 0, 0⟩) := by
    norm_num [List.foldl_cons, List.foldl_nil, hstep0]
    rw [show ps_c5_0.set_at 1 1 ⟨⟨0, 0, 0⟩, 4⟩ = ps_c5_1 from rfl]
    norm_num [hstep1]
    rw [show ps_c5_1.set_at 3 1 ⟨⟨0, 0, 0⟩, 4⟩ = ps_c5_2 from rfl]
    norm_num [hstep2]
    rw [show ps_c5_2.set_at 1 3 ⟨⟨0, 0, 0⟩, 4⟩ = ps_c5_3 from rfl]
    norm_num [hstep3]
    rw [show ps_c5_3.set_at 3 3 ⟨⟨0, 0, 0⟩, 4⟩ = ps_c5_4 from rfl]
  have hs : (sample fns_zero shade_black ⟨⟨0, 0, 0⟩, 0, 0, false, 4⟩
      ⟨0, 0, 4, 4⟩ []).2 =
      subpixel_sample fns_zero shade_black false ⟨0, 0, 4⟩
        ⟨ps_c5_0, [], 0, true⟩ := rfl
  have hmain : subpixel_sample fns_zero shade_black false ⟨0, 0, 4⟩
      ⟨ps_c5_0, [], 0, true⟩ = ⟨ps_c5_4, [], 4, true⟩ := by
    unfold subpixel_sample
    norm_num [hpass, color_distance, fns_zero]
  rw [hs, hmain]
  rw [ps_c5_4_at 0 0 (by norm_num) (by decide) (by decide) (by decide)
    (by decide)]

end OxaTrace
